import Mathlib

/-!
# p24-cli: a verification development

Shallow embedding of the protocol core of `dimboknv/p24-cli`
(`vendor/github.com/dimboknv/p24`): the merchant signature, the card number
and date range validation, the fixed-point `Amount` codec, the response checks
of `Client.DoContext` and the two calls of the API, and of the date range planner
and the merge of `cmd/statements.go`.

Conventions of the embedding:

* a Go `string` and a Go `[]byte` are both a list of bytes, `Bytes`; a byte is a
  `Nat` (every value a Go byte can take is below 256, and the definitions reduce
  modulo 256 where the width matters);
* a Go `error` result is an `Option` (`none` is `nil`) or an `Except`;
* the standard library digests `md5.Sum` and `sha1.Sum`, the `encoding/xml`
  decoder and the HTTP `Doer` are parameters of the definitions that use them.
-/

namespace P24

/-- A Go byte slice or string: its bytes in order. -/
abbrev Bytes := List Nat

/-- The bytes of an ASCII literal. -/
def ascii (s : String) : Bytes := s.toList.map Char.toNat

/-! ## encoding/hex -/

/-- The constant `hextable = "0123456789abcdef"` of `encoding/hex`. -/
def hextable : Bytes := ascii "0123456789abcdef"

/-- Go `hex.EncodeToString`: for every byte `v` of `src` the two bytes
`hextable[v>>4]` and `hextable[v&0x0f]`. -/
def EncodeToString (src : Bytes) : Bytes :=
  src.flatMap fun v => [hextable.getD ((v % 256) >>> 4) 0, hextable.getD (v &&& 0x0f) 0]

/-! ## merchant.go -/

/-- The digests of `crypto/md5` and `crypto/sha1`, which the client takes from
the standard library. -/
structure Digests where
  /-- The function `md5.Sum`. -/
  md5Sum : Bytes → Bytes
  /-- The function `sha1.Sum`. -/
  sha1Sum : Bytes → Bytes

/-- Go `Merchant`: the merchant id and password. -/
structure Merchant where
  ID : Bytes
  Pass : Bytes
deriving DecidableEq, Repr

/-- Go `MerchantSign`: the merchant id and signature. -/
structure MerchantSign where
  ID : Bytes
  Sign : Bytes
deriving DecidableEq, Repr

/-- Go `Merchant.Sign`. -/
def Merchant.Sign (h : Digests) (m : Merchant) (data : Bytes) : MerchantSign :=
  let payload := data ++ m.Pass
  let MD5 := h.md5Sum payload
  let SHA1 := h.sha1Sum (EncodeToString MD5)
  { ID := m.ID, Sign := EncodeToString SHA1 }

/-- Go `Merchant.VerifySign`: `none` is the nil error. -/
def Merchant.VerifySign (h : Digests) (m : Merchant) (data : Bytes) (dataSign : MerchantSign) :
    Option String :=
  if dataSign ≠ m.Sign h data then some "invalid signature" else none

/-! ## helper.go -/

/-- An ASCII decimal digit, the class `\d` of Go's `regexp`. -/
def isDigit (b : Nat) : Bool := decide (48 ≤ b) && decide (b ≤ 57)

/-- The match `onlyNumbers.MatchString` of the regular expression `^\d+$`: without
the multi-line flag `^` and `$` match only at the two ends of the text, so the
whole text is one or more ASCII digits. -/
def onlyNumbers (s : Bytes) : Bool := !s.isEmpty && s.all isDigit

/-- Go `CheckCardNumber`: `none` is the nil error. -/
def CheckCardNumber (card : Bytes) : Option String :=
  if card.length ≠ 16 then some "should be sixteen length"
  else if !onlyNumbers card then some "should contains digits only"
  else none

/-- Scan of `bytes.Index`, `i` being the offset of the text that is left. -/
def indexFrom (sep : Bytes) : Bytes → Nat → Int
  | [], i => if sep.isPrefixOf [] then (i : Int) else -1
  | c :: cs, i => if sep.isPrefixOf (c :: cs) then (i : Int) else indexFrom sep cs (i + 1)

/-- Go `bytes.Index` and `strings.Index`: the offset of the first instance of `sep`
in `s`, or `-1`. -/
def Index (s sep : Bytes) : Int := indexFrom sep s 0

/-- Scan of `bytes.LastIndex`, `i` being the offset of the text that is left. -/
def lastIndexFrom (sep : Bytes) : Bytes → Nat → Int
  | [], i => if sep.isPrefixOf [] then (i : Int) else -1
  | c :: cs, i =>
    let r := lastIndexFrom sep cs (i + 1)
    if r ≠ -1 then r else if sep.isPrefixOf (c :: cs) then (i : Int) else -1

/-- Go `bytes.LastIndex`: the offset of the last instance of `sep` in `s`, or `-1`. -/
def LastIndex (s sep : Bytes) : Int := lastIndexFrom sep s 0

instance instDecidableEqExcept {ε α : Type} [DecidableEq ε] [DecidableEq α] :
    DecidableEq (Except ε α)
  | .ok a, .ok b => if h : a = b then isTrue (by rw [h]) else isFalse (by simpa using h)
  | .error a, .error b => if h : a = b then isTrue (by rw [h]) else isFalse (by simpa using h)
  | .ok _, .error _ => isFalse (by simp)
  | .error _, .ok _ => isFalse (by simp)

/-- What a Go call does: it returns a value or it panics. -/
inductive Outcome (α : Type) where
  | ret (a : α)
  | panic
deriving DecidableEq, Repr

/-- Go `dataTagContent`: `make([]byte, end-start)` panics on a negative length. -/
def dataTagContent (data : Bytes) : Outcome (Except String Bytes) :=
  let start := Index data (ascii "<data>")
  let end_ := LastIndex data (ascii "</data>")
  if start = -1 ∨ end_ = -1 then .ret (.error "not found")
  else
    let start := start + ((ascii "<data>").length : Int)
    if end_ - start < 0 then .panic
    else .ret (.ok ((data.drop start.toNat).take (end_ - start).toNat))

/-! ## xml_resp.go and client.go -/

/-- Go `errors.Wrap(err, msg)`: the message of the wrapped error. -/
def Wrap (err msg : String) : String := msg ++ ": " ++ err

/-- The decoder `xml.Unmarshal` of `encoding/xml` at the targets the client
decodes a response body into, and `xml.Marshal` of a request. The decoders return
the fields that the client reads. -/
structure XML (Req Resp : Type) where
  /-- The call `xml.Marshal(req)`. -/
  Marshal : Req → Except String Bytes
  /-- Decoding into `respErr`: its message. -/
  respErr : Bytes → Except String String
  /-- Decoding into `respDataErr`: its message. -/
  respDataErr : Bytes → Except String String
  /-- Decoding into `respDataInfoErr`: its message. -/
  respDataInfoErr : Bytes → Except String String
  /-- Decoding into the envelope of `commonResp`: its `MerchantSign`. -/
  commonResp : Bytes → Except String MerchantSign
  /-- Decoding into the caller's `resp`: the error, if any, and the target after
  the call. -/
  Unmarshal : Bytes → Resp → Option String × Resp

/-- Go `xmlResp.CheckErr`: the message of the returned error, `none` for nil. -/
def xmlResp.CheckErr {Req Resp : Type} (x : XML Req Resp) (r : Bytes) : Option String :=
  match x.respErr r with
  | .ok msg => some msg
  | .error _ =>
    match x.respDataErr r with
    | .ok msg => some msg
    | .error _ =>
      match x.respDataInfoErr r with
      | .ok msg => some msg
      | .error _ => none

/-- Go `xmlResp.dataTagContent`. -/
def xmlResp.dataTagContent (r : Bytes) : Outcome (Except String Bytes) :=
  match P24.dataTagContent r with
  | .panic => .panic
  | .ret (.error err) => .ret (.error (Wrap err "invalid '<data>' tag"))
  | .ret (.ok dataTag) => .ret (.ok dataTag)

/-- Go `xmlResp.commonResp`. -/
def xmlResp.commonResp {Req Resp : Type} (x : XML Req Resp) (r : Bytes) :
    Except String MerchantSign :=
  match x.commonResp r with
  | .error err => .error (Wrap err "can`t unmarshal common response")
  | .ok resp => .ok resp

/-- Go `xmlResp.CheckContent`. -/
def xmlResp.CheckContent {Req Resp : Type} (x : XML Req Resp) (r : Bytes) :
    Outcome (Option String) :=
  match xmlResp.commonResp x r with
  | .error err => .ret (some err)
  | .ok _ =>
    match xmlResp.dataTagContent r with
    | .panic => .panic
    | .ret (.error err) => .ret (some err)
    | .ret (.ok _) => .ret none

/-- Go `xmlResp.VerifySign`. -/
def xmlResp.VerifySign {Req Resp : Type} (h : Digests) (x : XML Req Resp) (r : Bytes)
    (signer : Merchant) : Outcome (Option String) :=
  match xmlResp.dataTagContent r with
  | .panic => .panic
  | .ret (.error err) => .ret (some err)
  | .ret (.ok dataTag) =>
    match xmlResp.commonResp x r with
    | .error err => .ret (some err)
    | .ok resp => .ret (signer.VerifySign h dataTag resp)

/-- Go `Error`: an error with the method, URL and bodies that caused it; a nil
byte slice is `none`. -/
structure Error where
  Err : String
  URL : String
  Method : String
  Req : Option Bytes
  Resp : Option Bytes
deriving DecidableEq, Repr

/-- Go `newError`: the struct literal fills the fields in their declared order. -/
def newError (err url method : String) (resp req : Option Bytes) : Error :=
  { Err := err, URL := url, Method := method, Req := resp, Resp := req }

/-- A Go `error` value returned by `DoContext`: a wrapped plain error or an
`*Error`. -/
inductive GoError where
  | plain (msg : String)
  | p24 (e : Error)
deriving DecidableEq, Repr

/-- The request handed to the `Doer`. -/
structure HTTPRequest where
  Method : String
  URL : String
  Body : Bytes
  Header : List (String × String)
deriving DecidableEq, Repr

/-- The response of the `Doer`: the status code and what `io.ReadAll` gives for
the body. -/
structure HTTPResponse where
  StatusCode : Int
  Body : Except String Bytes
deriving DecidableEq

/-- Go `Client` with the standard library it runs on: the `Doer`, the merchant,
the digests, the XML codec, and the check `http.NewRequestWithContext` makes of
the method and URL (`none` when it accepts them). The logger does not enter any
result. -/
structure Client (Req Resp : Type) where
  http : HTTPRequest → Except String HTTPResponse
  m : Merchant
  digests : Digests
  xml : XML Req Resp
  newRequestErr : String → String → Option String

/-- The constant `xml.Header`. -/
def xmlHeader : Bytes := ascii "<?xml version=\"1.0\" encoding=\"UTF-8\"?>\n"

/-- The request `DoContext` hands to the `Doer`. -/
def sentRequest (url method : String) (marshalled : Bytes) : HTTPRequest :=
  { Method := method, URL := url, Body := xmlHeader ++ marshalled,
    Header := [("Content-Type", "application/xml; charset=utf-8")] }

/-- Go `Client.DoContext`: the returned error (`none` for nil) and the target
`resp` after the call, or a panic. -/
def Client.DoContext {Req Resp : Type} (c : Client Req Resp) (url method : String) (req : Req)
    (resp : Resp) : Outcome (Option GoError × Resp) :=
  match c.xml.Marshal req with
  | .error err => .ret (some (.plain (Wrap err "can`t marshal req")), resp)
  | .ok marshalled =>
    let httpReqBody := xmlHeader ++ marshalled
    match c.newRequestErr method url with
    | some err => .ret (some (.plain (Wrap err "can`t make http request")), resp)
    | none =>
      let httpReq : HTTPRequest :=
        { Method := method, URL := url, Body := httpReqBody,
          Header := [("Content-Type", "application/xml; charset=utf-8")] }
      match c.http httpReq with
      | .error err =>
        .ret (some (.p24 (newError (Wrap err "http request failed") url method
          (some httpReqBody) none)), resp)
      | .ok httpResp =>
        match httpResp.Body with
        | .error err =>
          .ret (some (.p24 (newError (Wrap err "can`t read http response httpRespBody") url
            method (some httpReqBody) none)), resp)
        | .ok httpRespBody =>
          if httpResp.StatusCode ≥ 300 then
            .ret (some (.p24 (newError
              ("unexpected http status code " ++ toString httpResp.StatusCode) url method
              (some httpReqBody) (some httpRespBody))), resp)
          else
            match xmlResp.CheckErr c.xml httpRespBody with
            | some err =>
              .ret (some (.p24 (newError (Wrap err "xml response with error") url method
                (some httpReqBody) (some httpRespBody))), resp)
            | none =>
              match xmlResp.CheckContent c.xml httpRespBody with
              | .panic => .panic
              | .ret (some err) =>
                .ret (some (.p24 (newError (Wrap err "unexpected xml response content") url
                  method (some httpReqBody) (some httpRespBody))), resp)
              | .ret none =>
                match xmlResp.VerifySign c.digests c.xml httpRespBody c.m with
                | .panic => .panic
                | .ret (some _) =>
                  .ret (some (.p24 (newError "xml response with invalid signature" url method
                    (some httpReqBody) (some httpRespBody))), resp)
                | .ret none =>
                  match c.xml.Unmarshal httpRespBody resp with
                  | (some err, resp1) =>
                    .ret (some (.p24 (newError (Wrap err "can`t unmarshal expectedErrMsg") url
                      method (some httpReqBody) (some httpRespBody))), resp1)
                  | (none, resp1) => .ret (none, resp1)

/-! ## statements.go -/

/-- Go `time.Time` as an instant on the wall clock: the nanoseconds since the Unix
epoch. The values carry no monotonic clock reading, as those built by
`time.Parse` and `time.Date`. -/
structure Time where
  unixNano : Int
deriving DecidableEq, Repr

/-- Go `time.Second`, in nanoseconds, the unit of `time.Duration`. -/
def Second : Int := 1000000000

/-- Go `time.Hour`. -/
def Hour : Int := 3600 * Second

/-- The smallest `time.Duration`, an int64. -/
def minDuration : Int := -9223372036854775808

/-- The largest `time.Duration`. -/
def maxDuration : Int := 9223372036854775807

/-- Go `Time.Unix`: the seconds since the epoch, the nanoseconds of the second
being dropped. -/
def Time.Unix (t : Time) : Int := t.unixNano / Second

/-- Go `Time.Sub`: the duration `t-u`, the largest or smallest duration when the
difference does not fit an int64. -/
def Time.Sub (t u : Time) : Int :=
  let d := t.unixNano - u.unixNano
  if d < minDuration then minDuration else if d > maxDuration then maxDuration else d

/-- Go `CommonOpts`. -/
structure CommonOpts where
  Oper : Bytes
  Wait : Int
  Test : Int
deriving DecidableEq, Repr

/-- Go `StatementsOpts`. -/
structure StatementsOpts where
  StartDate : Time
  EndDate : Time
  CardNumber : Bytes
  commonOpts : CommonOpts
deriving DecidableEq, Repr

/-- Go `StatementsOpts.Validate`: `none` is the nil error. -/
def StatementsOpts.Validate (r : StatementsOpts) : Option String :=
  if r.StartDate.Unix > r.EndDate.Unix then
    some "date range should be with start date <= end date"
  else if r.EndDate.Sub r.StartDate > 90 * 24 * Hour then
    some "date range should be no longer than 90 days"
  else
    match CheckCardNumber r.CardNumber with
    | some err => some (Wrap err "invalid card number")
    | none => none

/-! ## strconv and strings -/

/-- The loop of `strconv.formatBits` in base 10: the digits of `n` are written from
the least significant one leftwards in front of `acc`; `fuel` bounds the number
of turns. -/
def formatBits : Nat → Nat → Bytes → Bytes
  | 0, _, acc => acc
  | fuel + 1, n, acc =>
    if n < 10 then (48 + n) :: acc else formatBits fuel (n / 10) ((48 + n % 10) :: acc)

/-- Go `strconv.FormatUint(n, 10)`. -/
def FormatUint (n : Nat) : Bytes := formatBits (n + 1) n []

/-- The sign that `FormatInt` writes: `-` before a negative number, nothing
otherwise. -/
def minusSign (i : Int) : Bytes := if i < 0 then [45] else []

/-- Go `strconv.FormatInt(i, 10)`: a `-` and the digits of the magnitude for a
negative `i`. -/
def FormatInt (i : Int) : Bytes :=
  if i < 0 then 45 :: FormatUint i.natAbs else FormatUint i.natAbs

/-- The errors of `strconv` (`ErrSyntax`, `ErrRange`) and the one `UnmarshalText`
makes for an empty text. -/
inductive NumError where
  | invalidText
  | ErrSyntax
  | ErrRange
deriving DecidableEq, Repr

/-- The loop of `strconv.ParseUint(s, 10, 64)` over the bytes that are left, `n`
being the uint64 read so far: a byte that is no digit is a syntax error,
`n >= cutoff` (with `cutoff = maxUint64/10 + 1`) or a wrapped sum is a range
error. -/
def parseUintLoop : Bytes → Nat → Except NumError Nat
  | [], n => .ok n
  | c :: cs, n =>
    if 48 ≤ c ∧ c ≤ 57 then
      let d := c - 48
      if n ≥ 18446744073709551615 / 10 + 1 then .error .ErrRange
      else
        let n0 := n * 10 % 18446744073709551616
        let n1 := (n0 + d) % 18446744073709551616
        if n1 < n0 ∨ n1 > 18446744073709551615 then .error .ErrRange
        else parseUintLoop cs n1
    else .error .ErrSyntax

/-- Go `strconv.ParseUint(s, 10, 64)`. -/
def ParseUint (s : Bytes) : Except NumError Nat :=
  if s = [] then .error .ErrSyntax else parseUintLoop s 0

/-- Go `strconv.ParseInt(s, 10, 64)`: a leading `+` or `-` is picked off, the rest
is read by `ParseUint`, and the magnitude is checked against the int64 range. A
range error of `ParseUint` ends in the range error of `ParseInt`. -/
def ParseInt (s : Bytes) : Except NumError Int :=
  match s with
  | [] => .error .ErrSyntax
  | c :: rest =>
    let neg : Bool := decide (c = 45)
    let s1 := if c = 43 ∨ c = 45 then rest else c :: rest
    match ParseUint s1 with
    | .error e => .error e
    | .ok un =>
      if neg = false ∧ un ≥ 9223372036854775808 then .error .ErrRange
      else if neg = true ∧ un > 9223372036854775808 then .error .ErrRange
      else .ok (if neg then -(un : Int) else (un : Int))

/-- Go `strings.Replace(s, old, new, 1)` for a non-empty `old`: the first instance
of `old`, if there is one, is replaced. -/
def ReplaceFirst (s old new : Bytes) : Bytes :=
  let i := Index s old
  if i = -1 then s else s.take i.toNat ++ new ++ s.drop (i.toNat + old.length)

/-! ## funds.go -/

/-- Go `Amount`, an int64: the amount in hundredths. -/
abbrev Amount := Int

/-- The smallest int64. -/
def minInt64 : Int := -9223372036854775808

/-- The largest int64. -/
def maxInt64 : Int := 9223372036854775807

/-- Go `Amount.MarshalText`: the text (the error is always nil). -/
def Amount.MarshalText (a : Amount) : Bytes :=
  let str := FormatInt a
  let parts : Bytes × Bytes × Bytes :=
    if -10 < a ∧ a < 10 then
      let i := str.length - 1
      (str.take i, ascii "0.0", str.drop i)
    else if -100 < a ∧ a < 100 then
      let i := str.length - 2
      (str.take i, ascii "0.", str.drop i)
    else
      let i := str.length - 2
      (str.take i, ascii ".", str.drop i)
  let str := parts.1 ++ parts.2.1 ++ parts.2.2
  ReplaceFirst str (ascii ".00") []

/-- Go `Amount.UnmarshalText`: the amount stored in `a`, or the error. The slice
`s[:i+3]` is within bounds, the `.` being in `text` and the padding two bytes
long. -/
def Amount.UnmarshalText (text : Bytes) : Except NumError Amount :=
  if text.length = 0 then .error .invalidText
  else
    let s := text ++ ascii "00"
    let i := Index s (ascii ".")
    let s := if i ≠ -1 then ReplaceFirst (s.take (i + 3).toNat) (ascii ".") [] else s
    ParseInt s

/-! ## float64 arithmetic of `math.Ceil(float64(x) / float64(y))` -/

/-- The integer nearest to `num/den`, the even one of the two when `num/den` is
half way between them: the rounding of IEEE 754 (`roundTiesToEven`), which Go uses
for conversions to `float64` and for `float64` division. -/
def roundHalfEven (num den : Nat) : Nat :=
  let q := num / den
  let r := num % den
  if 2 * r < den then q else if den < 2 * r then q + 1 else if q % 2 = 0 then q else q + 1

/-- The distance between neighbouring `float64` values around `y`, for `y` at least
`2^52`: the power of two `2^(k-52)` for `2^k ≤ y < 2^(k+1)` (a `float64` has 53
significant bits). Below `2^53` it is 1; `fuel` bounds the number of halvings. -/
def ulp : Nat → Nat → Nat
  | 0, _ => 1
  | fuel + 1, y => if y < 9007199254740992 then 1 else 2 * ulp fuel (y / 2)

/-- The `float64` nearest to `num/den`, for `num/den` at least `2^52` (or a natural
number below): such a `float64` is a natural number, a multiple of the `ulp`. -/
def round53 (num den : Nat) : Nat :=
  let u := ulp (num / den) (num / den)
  roundHalfEven num (den * u) * u

/-- Go `float64(x)` for a non-negative int64 `x`: a natural number again. -/
def float64 (x : Nat) : Nat := round53 x 1

/-- Go `int(math.Ceil(float64(x) / float64(y)))` for int64 values `0 < y ≤ x`. The
quotient of the two floats is at least 1, so it is a multiple of `2^-52`; `q` is
the quotient times `2^52`, and the ceiling is taken exactly. -/
def ceilFloatQuot (x y : Nat) : Nat :=
  let q := round53 (float64 x * 4503599627370496) (float64 y)
  (q + 4503599627370495) / 4503599627370496

/-! ## cmd/statements.go -/

/-- Go `Time.Add`. -/
def Time.Add (t : Time) (d : Int) : Time := ⟨t.unixNano + d⟩

/-- Go `Time.After`. -/
def Time.After (t u : Time) : Bool := decide (t.unixNano > u.unixNano)

/-- The loop of `SplitStatementsDateRange` with `k` turns left: the options it
writes into `opts`, `sd` and `ed` being the loop variables. -/
def splitLoop (endDate : Time) (card : Bytes) : Nat → Time → Time → List StatementsOpts
  | 0, _, _ => []
  | k + 1, sd, ed =>
    let ed := if ed.After endDate then endDate else ed
    { StartDate := sd, EndDate := ed, CardNumber := card, commonOpts := ⟨[], 0, 0⟩ } ::
      splitLoop endDate card k (sd.Add (90 * 24 * Hour + 24 * Hour))
        (ed.Add (90 * 24 * Hour + 24 * Hour))

/-- The number `n` of options `SplitStatementsDateRange` makes. -/
def splitCount (startDate endDate : Time) : Nat :=
  let days90 := 90 * 24 * Hour
  let dateRange := endDate.Sub startDate
  if dateRange > days90 then ceilFloatQuot dateRange.toNat days90.toNat else 1

/-- Go `SplitStatementsDateRange`. -/
def SplitStatementsDateRange (startDate endDate : Time) (card : Bytes) : List StatementsOpts :=
  let days90 := 90 * 24 * Hour
  splitLoop endDate card (splitCount startDate endDate) startDate (startDate.Add days90)

/-- The zero value `time.Time{}`: January 1, year 1, 00:00:00 UTC. -/
def Time.zero : Time := ⟨-62135596800000000000⟩

/-- Go `Funds`. -/
structure Funds where
  Currency : Bytes
  Amount : P24.Amount
deriving DecidableEq, Repr

/-- Go `Statement`. -/
structure Statement where
  Card : Bytes
  Appcode : Bytes
  TranDate : Time
  Terminal : Bytes
  Description : Bytes
  Amount : Funds
  CardAmount : Funds
  Rest : Funds
deriving DecidableEq, Repr

/-- Go `Statements`. -/
structure Statements where
  Status : Bytes
  Statements : List Statement
  Credit : Amount
  Debet : Amount
deriving DecidableEq, Repr

/-- The zero value `Statements{}`. -/
def zeroStatements : Statements := { Status := [], Statements := [], Credit := 0, Debet := 0 }

/-- The int64 that a sum of int64 values wraps to. -/
def wrapInt64 (i : Int) : Int :=
  (i + 9223372036854775808) % 18446744073709551616 - 9223372036854775808

/-- The body of the loop of `mergeStatements`. -/
def mergeStep (res s : Statements) : Statements :=
  { Status := s.Status
    Debet := wrapInt64 (res.Debet + s.Debet)
    Credit := wrapInt64 (res.Credit + s.Credit)
    Statements := res.Statements ++ s.Statements }

/-- Go `mergeStatements`. -/
def mergeStatements (statements : List Statements) : Statements :=
  statements.foldl mergeStep zeroStatements

/-- The accumulator of `getStatementsWithProgressBar` after the workers whose
results are `completed`, in the order in which they take the mutex, have run
`res = mergeStatements(res, statements)`. -/
def mergeCompleted (completed : List Statements) : Statements :=
  completed.foldl (fun res statements => mergeStatements [res, statements]) zeroStatements

/-! ## A small client, for evaluating the definitions -/

/-- Stand-ins for the two digests: the length of the input, and its first byte. -/
def demoDigests : Digests :=
  { md5Sum := fun d => [d.length % 256], sha1Sum := fun d => d.take 1 }

/-- A codec that finds no in-band error and reads `declared` as the merchant
signature of every body. -/
def demoXML (declared : MerchantSign) : XML Unit Unit :=
  { Marshal := fun _ => .ok (ascii "<request></request>")
    respErr := fun _ => .error "expected element type <error>"
    respDataErr := fun _ => .error "empty error"
    respDataInfoErr := fun _ => .error "empty info"
    commonResp := fun _ => .ok declared
    Unmarshal := fun _ r => (none, r) }

/-- The body the demo server answers with. -/
def demoBody : Bytes := ascii "<response><data>x</data></response>"

/-- A client of merchant `75482` whose server answers `200` with `demoBody`. -/
def demoClient (declared : MerchantSign) : Client Unit Unit :=
  { http := fun _ => .ok ⟨200, .ok demoBody⟩
    m := { ID := ascii "75482", Pass := ascii "secret" }
    digests := demoDigests
    xml := demoXML declared
    newRequestErr := fun _ _ => none }

/-! ## request.go, balance.go and the two calls of the API -/

/-- Go `errors.Wrap(err, msg)` on an error that may be nil: wrapping nil gives
nil. -/
def WrapOpt (err : Option String) (msg : String) : Option String :=
  err.map fun e => Wrap e msg

/-- The `Payment` field of `RequestData`: its id and its properties (the field
`Prop`), each a name and a value. -/
structure Payment where
  ID : Bytes
  Props : List (Bytes × Bytes)
deriving DecidableEq, Repr

/-- Go `RequestData`. -/
structure RequestData where
  Payment : Payment
  commonOpts : CommonOpts
deriving DecidableEq, Repr

/-- Go `Request`. -/
structure Request where
  Version : Bytes
  MerchantSign : MerchantSign
  Data : RequestData
deriving DecidableEq, Repr

/-- The zero value `Request{}`. -/
def zeroRequest : Request :=
  { Version := [], MerchantSign := ⟨[], []⟩, Data := ⟨⟨[], []⟩, ⟨[], 0, 0⟩⟩ }

/-- Go `DefaultCommonOpts`. -/
def DefaultCommonOpts : CommonOpts := { Oper := ascii "cmt", Wait := 0, Test := 0 }

/-- Go `NewRequest`, with `xml.Marshal` of the request data as `marshalData`: the
request and the error (`none` for nil), or the panic of `dataTagContent`. -/
def NewRequest (h : Digests) (marshalData : RequestData → Except String Bytes) (m : Merchant)
    (reqData : RequestData) : Outcome (Request × Option String) :=
  let reqData : RequestData :=
    if reqData.commonOpts = ⟨[], 0, 0⟩ then { reqData with commonOpts := DefaultCommonOpts }
    else reqData
  match marshalData reqData with
  | .error err => .ret (zeroRequest, some (Wrap err "can`t marshal request data"))
  | .ok xmlData =>
    match dataTagContent xmlData with
    | .panic => .panic
    | .ret (.error err) => .ret (zeroRequest, WrapOpt (some err) "can`t get '<data>' tag")
    | .ret (.ok dataTag) =>
      if dataTag.length = 0 then .ret (zeroRequest, WrapOpt none "can`t get '<data>' tag")
      else .ret ({ Version := ascii "1.0", MerchantSign := m.Sign h dataTag, Data := reqData },
        none)

/-- The requests `DoContext` hands to the `Doer`: the one request it builds, unless
`xml.Marshal` or `http.NewRequestWithContext` fails before. -/
def Client.handed {Req Resp : Type} (c : Client Req Resp) (url method : String) (req : Req) :
    List HTTPRequest :=
  match c.xml.Marshal req with
  | .error _ => []
  | .ok marshalled =>
    match c.newRequestErr method url with
    | some _ => []
    | none => [sentRequest url method marshalled]

/-- Go `Card`; its field `Type` is `CardType` here. -/
structure Card where
  Account : Bytes
  Number : Bytes
  AccName : Bytes
  AccType : Bytes
  Currency : Bytes
  CardType : Bytes
  MainCard : Bytes
  Status : Bytes
  Src : Bytes
deriving DecidableEq, Repr

/-- Go `CardBalance`. -/
structure CardBalance where
  Date : Time
  Dyn : Bytes
  Card : Card
  Available : Amount
  Balance : Amount
  FinLimit : Amount
  TradeLimit : Amount
deriving DecidableEq, Repr

/-- The zero value `CardBalance{}`. -/
def zeroCardBalance : CardBalance :=
  { Date := Time.zero, Dyn := [], Card := ⟨[], [], [], [], [], [], [], [], []⟩, Available := 0,
    Balance := 0, FinLimit := 0, TradeLimit := 0 }

/-- Go `BalanceOpts`. -/
structure BalanceOpts where
  CardNumber : Bytes
  Country : Bytes
  commonOpts : CommonOpts
deriving DecidableEq, Repr

/-- The constant `cardBalanceAPIURL`. -/
def cardBalanceAPIURL : String := "https://api.privatbank.ua/p24api/balance"

/-- The constant `statementsAPIURL`. -/
def statementsAPIURL : String := "https://api.privatbank.ua/p24api/rest_fiz"

/-- The result of a call of the API: what the call returns (the value and the
error, or a panic) and the requests it handed to the `Doer`, in order. -/
structure Call (α : Type) where
  result : Outcome (α × Option GoError)
  sent : List HTTPRequest

/-- Go `Client.GetCardBalance`, with `xml.Marshal` of the request data as
`marshalData`. The target `resp` of `DoContext` is modelled by the card balance in
its `Info`. -/
def Client.GetCardBalance (c : Client Request CardBalance)
    (marshalData : RequestData → Except String Bytes) (opts : BalanceOpts) : Call CardBalance :=
  match CheckCardNumber opts.CardNumber with
  | some err => ⟨.ret (zeroCardBalance, some (.plain (Wrap err "invalid card number"))), []⟩
  | none =>
    let reqData : RequestData :=
      { commonOpts := opts.commonOpts,
        Payment := { ID := [], Props := [(ascii "cardnum", opts.CardNumber),
                                         (ascii "country", opts.Country)] } }
    match NewRequest c.digests marshalData c.m reqData with
    | .panic => ⟨.panic, []⟩
    | .ret (_, some err) =>
      ⟨.ret (zeroCardBalance, some (.plain (Wrap err "can`t make request"))), []⟩
    | .ret (req, none) =>
      let sent := c.handed cardBalanceAPIURL "POST" req
      match c.DoContext cardBalanceAPIURL "POST" req zeroCardBalance with
      | .panic => ⟨.panic, sent⟩
      | .ret (some err, _) => ⟨.ret (zeroCardBalance, some err), sent⟩
      | .ret (none, resp) => ⟨.ret (resp, none), sent⟩

/-- Go `Client.GetStatements`, with `xml.Marshal` of the request data as
`marshalData` and `Time.Format` with the layout `02.01.2006` as `format`. The
target `resp` of `DoContext` is modelled by the statements in its `Info`. -/
def Client.GetStatements (c : Client Request Statements)
    (marshalData : RequestData → Except String Bytes) (format : Time → Bytes)
    (opts : StatementsOpts) : Call Statements :=
  match opts.Validate with
  | some err => ⟨.ret (zeroStatements, some (.plain (Wrap err "invalid request options"))), []⟩
  | none =>
    let reqData : RequestData :=
      { commonOpts := opts.commonOpts,
        Payment := { ID := [], Props := [(ascii "sd", format opts.StartDate),
                                         (ascii "ed", format opts.EndDate),
                                         (ascii "card", opts.CardNumber)] } }
    match NewRequest c.digests marshalData c.m reqData with
    | .panic => ⟨.panic, []⟩
    | .ret (_, some err) =>
      ⟨.ret (zeroStatements, some (.plain (Wrap err "can`t make request"))), []⟩
    | .ret (req, none) =>
      let sent := c.handed statementsAPIURL "POST" req
      match c.DoContext statementsAPIURL "POST" req zeroStatements with
      | .panic => ⟨.panic, sent⟩
      | .ret (some err, _) => ⟨.ret (zeroStatements, some err), sent⟩
      | .ret (none, resp) => ⟨.ret (resp, none), sent⟩

/-! ## funds.go: Funds -/

/-- The loop of `strings.Split` and `bytes.Split` for a non-empty `sep`: the text is
cut at every instance of `sep`, found from the left; `fuel` bounds the number of
cuts. -/
def genSplit (sep : Bytes) : Nat → Bytes → List Bytes
  | 0, s => [s]
  | fuel + 1, s =>
    let m := Index s sep
    if m < 0 then [s]
    else s.take m.toNat :: genSplit sep fuel (s.drop (m.toNat + sep.length))

/-- Go `strings.Split(s, sep)` and `bytes.Split(s, sep)` for a non-empty `sep`. -/
def strings.Split (s sep : Bytes) : List Bytes := genSplit sep s.length s

/-- Go `Amount.String`. -/
def Amount.String (a : Amount) : Bytes := Amount.MarshalText a

/-- Go `Funds.MarshalText`: the text (the error is always nil). -/
def Funds.MarshalText (f : Funds) : Bytes := Amount.String f.Amount ++ ascii " " ++ f.Currency

/-- Go `Funds.UnmarshalText`: the funds stored in `f`, or the error. -/
def Funds.UnmarshalText (text : Bytes) : Except NumError Funds :=
  let vales := strings.Split text (ascii " ")
  if vales.length ≠ 2 then .error .invalidText
  else
    match Amount.UnmarshalText (vales.getD 0 []) with
    | .error err => .error err
    | .ok amount => .ok { Amount := amount, Currency := vales.getD 1 [] }

/-! ## The rate limiter of client.go -/

/-- The type `rate.Limit` of `golang.org/x/time/rate`: a number of events per
second, or `rate.Inf`. -/
inductive Limit where
  | Inf
  | perSecond (events : ℚ)
deriving DecidableEq

/-- The function `rate.Every`: the limit of one event every `interval`
(nanoseconds), which is `1 / interval.Seconds()` events per second. For
`time.Second` the `float64` arithmetic of the library is exact. -/
def Every (interval : Int) : Limit :=
  if interval ≤ 0 then .Inf else .perSecond (1 / ((interval : ℚ) / 1000000000))

/-- The type `rate.Limiter`: events up to the rate `limit`, bursts of at most `burst`
tokens. -/
structure Limiter where
  limit : Limit
  burst : Int
deriving DecidableEq

/-- The function `rate.NewLimiter`. -/
def NewLimiter (r : Limit) (b : Int) : Limiter := { limit := r, burst := b }

/-- Go `NewRateLimiter`. -/
def NewRateLimiter : Limiter := NewLimiter (Every Second) 2

/-! ## cmd/statements.go: the workers -/

/-- Go `getStatementsWithProgressBar` after the calls: `completed` lists what
`client.GetStatements` returned to each worker, in the order in which the workers
finish. A worker with a nil error merges its statements into `res` under the
mutex and returns nil; a worker with an error returns it. `eg.Wait` returns the
first error that a worker returned. -/
def getStatementsWithProgressBar (completed : List (Statements × Option GoError)) :
    Statements × Option GoError :=
  let res := completed.foldl
    (fun res r =>
      match r.2 with
      | some _ => res
      | none => mergeStatements [res, r.1])
    zeroStatements
  match completed.findSome? (fun r => r.2) with
  | some err => (zeroStatements, some err)
  | none => (res, none)

/-! ## export/format.go -/

/-- The type `reflect.StructField`, as far as the parser reads it; `PkgPath` is
empty for an exported field. -/
structure StructField where
  Name : Bytes
  PkgPath : Bytes
  Anonymous : Bool
deriving DecidableEq, Repr

/-- The `reflect.Type` of the value given to `DefaultFormatParser`: a struct type
with its lookup `FieldByName`, or a type of another kind. -/
inductive GoType where
  | struct (FieldByName : Bytes → Option StructField)
  | other (kind : String)

/-- Go `Format`; a rune is its code point. -/
structure Format where
  Str : Bytes
  Fields : List Bytes
  Delim : Nat
deriving DecidableEq, Repr

/-- The zero value `Format{}`. -/
def zeroFormat : Format := { Str := [], Fields := [], Delim := 0 }

/-- Go `MakeFormat`: the format and the error (`none` for nil). -/
def MakeFormat (str : Bytes) (fp : Bytes → Except String (List Bytes × Nat)) :
    Format × Option String :=
  match fp str with
  | .error err => (zeroFormat, some err)
  | .ok (fields, delim) => ({ Fields := fields, Delim := delim, Str := str }, none)

/-- A word character of Go's `regexp`: the class `\w`, which is `[0-9A-Za-z_]`. -/
def isWord (b : Nat) : Bool :=
  (decide (48 ≤ b) && decide (b ≤ 57)) || (decide (65 ≤ b) && decide (b ≤ 90)) ||
    (decide (97 ≤ b) && decide (b ≤ 122)) || decide (b = 95)

/-- A continuation byte of UTF-8. -/
def isCont (b : Nat) : Bool := decide (128 ≤ b) && decide (b ≤ 191)

/-- The width of the first rune of a text as `utf8.DecodeRune` reads it: the length
of a valid UTF-8 encoding, and 1 for a byte that starts none. -/
def runeWidth : Bytes → Nat
  | [] => 0
  | b0 :: rest =>
    if b0 < 128 then 1
    else if 194 ≤ b0 ∧ b0 ≤ 223 then
      match rest with
      | b1 :: _ => if isCont b1 then 2 else 1
      | _ => 1
    else if 224 ≤ b0 ∧ b0 ≤ 239 then
      let lo := if b0 = 224 then 160 else 128
      let hi := if b0 = 237 then 159 else 191
      match rest with
      | b1 :: b2 :: _ => if lo ≤ b1 ∧ b1 ≤ hi ∧ isCont b2 = true then 3 else 1
      | _ => 1
    else if 240 ≤ b0 ∧ b0 ≤ 244 then
      let lo := if b0 = 240 then 144 else 128
      let hi := if b0 = 244 then 143 else 191
      match rest with
      | b1 :: b2 :: b3 :: _ =>
        if lo ≤ b1 ∧ b1 ≤ hi ∧ isCont b2 = true ∧ isCont b3 = true then 4 else 1
      | _ => 1
    else 1

/-- The match `nonWordRegexp.MatchString` of the regular expression `^\W$`: the text
is one rune and that rune is no word character (every rune outside ASCII, and the
replacement rune read for an invalid byte, is none). -/
def nonWordRegexp (s : Bytes) : Bool :=
  match s with
  | [] => false
  | b0 :: rest => decide (runeWidth (b0 :: rest) = (b0 :: rest).length) && !isWord b0

/-- The loop of the parser that `DefaultFormatParser` returns, over the segments
that are left: the fields read so far and the delimiter. -/
def formatLoop (FieldByName : Bytes → Option StructField) :
    List Bytes → List Bytes → Nat → Except String (List Bytes × Nat)
  | [], fields, delim => .ok (fields, delim)
  | f :: rest, fields, delim =>
    if rest = [] ∧ nonWordRegexp f = true then formatLoop FieldByName rest fields (f.headD 0)
    else
      match FieldByName f with
      | none => .error "invalid field"
      | some sf =>
        if sf.Anonymous then .error "invalid field"
        else formatLoop FieldByName rest (fields ++ [f]) delim

/-- Go `DefaultFormatParser`: the parser for the struct type of `strct`. -/
def DefaultFormatParser (strct : GoType) : Bytes → Except String (List Bytes × Nat) :=
  match strct with
  | .other k => fun _ => .error ("kind " ++ k ++ " is not supported")
  | .struct FieldByName => fun str =>
    let ff := strings.Split str (ascii "|")
    let ff := if ff.length = 0 then ff ++ [str] else ff
    match formatLoop FieldByName ff [] 44 with
    | .error err => .error err
    | .ok (fields, delim) =>
      if fields.length = 0 then .error "no fields" else .ok (fields, delim)

/-- The value given to `ValuesOf` as `reflect.ValueOf` sees it: a struct with its
lookup `FieldByName` (the value of the field and whether `CanInterface` holds, or
nothing for an invalid `Value`), a pointer to such a value, a nil pointer, or a
value of another kind. -/
inductive Obj (V : Type) where
  | struct (FieldByName : Bytes → Option (V × Bool))
  | ptr (elem : Obj V)
  | nilPtr
  | other (kind : String)

/-- The loop of `ValuesOf` over the field names that are left. -/
def valuesLoop {V : Type} (FieldByName : Bytes → Option (V × Bool)) :
    List Bytes → Except String (List V)
  | [] => .ok []
  | f :: rest =>
    match FieldByName f with
    | none => .error "field not exist"
    | some (v, canInterface) =>
      if canInterface = false then .error "unexported field"
      else
        match valuesLoop FieldByName rest with
        | .error err => .error err
        | .ok vs => .ok (v :: vs)

/-- Go `Format.ValuesOf`: the values or the error; `objVal.Elem().Interface()` panics
for a nil pointer. -/
def Format.ValuesOf {V : Type} (f : Format) : Obj V → Outcome (Except String (List V))
  | .ptr elem => f.ValuesOf elem
  | .nilPtr => .panic
  | .other k => .ret (.error ("kind " ++ k ++ " is not supported. only struct or ptr to struct"))
  | .struct FieldByName => .ret (valuesLoop FieldByName f.Fields)

/-- The struct type of the repository's test: the exported fields `A`, `B`, `C` and
the unexported field `a`. -/
def testStruct : GoType :=
  .struct fun name =>
    if name = ascii "A" ∨ name = ascii "B" ∨ name = ascii "C" then some ⟨name, [], false⟩
    else if name = ascii "a" then some ⟨name, ascii "export", false⟩
    else none

/-- The lookup of an object of a struct with the exported fields `A`, `B`, `C`, whose
values are 1, 2 and 3. -/
def demoObj (name : Bytes) : Option (Nat × Bool) :=
  if name = ascii "A" then some (1, true)
  else if name = ascii "B" then some (2, true)
  else if name = ascii "C" then some (3, true)
  else none

/-! ## Statements for evaluating the merge -/

/-- A statement of the card `x`. -/
def demoStatementX : Statement :=
  { Card := ascii "x", Appcode := [], TranDate := Time.zero, Terminal := [], Description := [],
    Amount := ⟨[], 0⟩, CardAmount := ⟨[], 0⟩, Rest := ⟨[], 0⟩ }

/-- A statement of the card `y`. -/
def demoStatementY : Statement :=
  { Card := ascii "y", Appcode := [], TranDate := Time.zero, Terminal := [], Description := [],
    Amount := ⟨[], 0⟩, CardAmount := ⟨[], 0⟩, Rest := ⟨[], 0⟩ }

/-- The result `{A, debit 1, credit 2, [x]}`. -/
def demoResultA : Statements :=
  { Status := ascii "A", Statements := [demoStatementX], Credit := 2, Debet := 1 }

/-- The result `{B, debit 3, credit 4, [y]}`. -/
def demoResultB : Statements :=
  { Status := ascii "B", Statements := [demoStatementY], Credit := 4, Debet := 3 }

/-- A client for the two calls of the API whose `Doer` fails. -/
def demoAPIClient (Resp : Type) : Client Request Resp :=
  { http := fun _ => .error "connection refused"
    m := { ID := ascii "75482", Pass := ascii "secret" }
    digests := demoDigests
    xml := { Marshal := fun _ => .ok (ascii "<request></request>")
             respErr := fun _ => .error "expected element type <error>"
             respDataErr := fun _ => .error "empty error"
             respDataInfoErr := fun _ => .error "empty info"
             commonResp := fun _ => .ok ⟨[], []⟩
             Unmarshal := fun _ r => (none, r) }
    newRequestErr := fun _ _ => none }

/-! ## Numerals as the specification words them -/

/-- The form `[+-]?digits*`: an optional sign in the first place and decimal digits
in every other place. -/
def optSignDigits : Bytes → Bool
  | [] => true
  | c :: cs => (c == 43 || c == 45 || isDigit c) && cs.all isDigit

/-- An optionally signed non-empty digit string. -/
def signedDigits : Bytes → Bool
  | [] => false
  | c :: cs =>
    if c = 43 ∨ c = 45 then !cs.isEmpty && cs.all isDigit else isDigit c && cs.all isDigit

/-- The part of a text that decides how it parses: the text before its first `.`
and the first two bytes after that `.`; the whole text when it has no `.`. -/
def keptPart (text : Bytes) : Bytes :=
  text.takeWhile (fun b => b != 46) ++ ((text.dropWhile (fun b => b != 46)).drop 1).take 2

/-- The decimal numeral of a natural number, as ASCII digits. -/
def decimalNat (n : Nat) : Bytes :=
  if n < 10 then [48 + n] else decimalNat (n / 10) ++ [48 + n % 10]

/-- The decimal numeral of an integer: a `-` before the numeral of the magnitude
of a negative one. -/
def decimalInt (i : Int) : Bytes :=
  if i < 0 then 45 :: decimalNat i.natAbs else decimalNat i.natAbs

/-- The reference rendering of an amount: the bare integer `a/100` for a multiple
of 100; otherwise an optional `-`, the integer part `|a| div 100`, a `.` and the
two digits of `|a| mod 100`. -/
def formatRef (a : Int) : Bytes :=
  if a % 100 = 0 then decimalInt (a / 100)
  else
    (if a < 0 then [45] else []) ++ decimalNat (a.natAbs / 100) ++ [46] ++
      [48 + a.natAbs % 100 / 10, 48 + a.natAbs % 100 % 10]

/-! ## Format strings as the specification words them -/

/-- The format string `F1|F2|...|Fn` of the segments `F1`, ..., `Fn`. -/
def joinBar : List Bytes → Bytes
  | [] => []
  | [F] => F
  | F :: G :: Fs => F ++ 124 :: joinBar (G :: Fs)

/-! ## The windows of a date range in closed form -/

/-- The option the loop of `SplitStatementsDateRange` writes in its turn `i` when it
starts from `sd` and `ed`: it begins `i` times 91 days after `sd` and ends `i` times
91 days after `ed`, or at `endDate` when that is earlier. -/
def windowAt (endDate : Time) (card : Bytes) (sd ed : Time) (i : Nat) : StatementsOpts :=
  { StartDate := ⟨sd.unixNano + i * (91 * 24 * Hour)⟩
    EndDate := ⟨min (ed.unixNano + i * (91 * 24 * Hour)) endDate.unixNano⟩
    CardNumber := card
    commonOpts := ⟨[], 0, 0⟩ }

/-! ## The signature as the specification words it -/

/-- One lowercase hexadecimal digit as an ASCII byte. -/
def hexDigit (n : Nat) : Nat := if n < 10 then 48 + n else 87 + n

/-- Lowercase hexadecimal text of a byte sequence: two digits per byte, the high
nibble first. -/
def hexLower : Bytes → Bytes
  | [] => []
  | b :: bs => hexDigit (b % 256 / 16) :: hexDigit (b % 16) :: hexLower bs

/-- A hexadecimal text in upper case: the letters `a` to `f` become `A` to `F`. -/
def upperHex (s : Bytes) : Bytes := s.map fun b => if 97 ≤ b ∧ b ≤ 102 then b - 32 else b

/-! ## Lemmas: hex encoding -/

theorem hextable_getD (n : Nat) (h : n < 16) : hextable.getD n 0 = hexDigit n := by
  interval_cases n <;> rfl

theorem EncodeToString_nil : EncodeToString [] = [] := rfl

theorem EncodeToString_cons (v : Nat) (vs : Bytes) :
    EncodeToString (v :: vs) =
      hexDigit (v % 256 / 16) :: hexDigit (v % 16) :: EncodeToString vs := by
  have h1 : (v % 256) >>> 4 = v % 256 / 16 := by
    rw [Nat.shiftRight_eq_div_pow]
  have h2 : v &&& 0x0f = v % 16 := by
    have := Nat.and_pow_two_sub_one_eq_mod v 4
    simpa using this
  have h3 : v % 256 / 16 < 16 := by omega
  have h4 : v % 16 < 16 := by omega
  simp only [EncodeToString, List.flatMap_cons, h1, h2, hextable_getD _ h3, hextable_getD _ h4]
  rfl

theorem EncodeToString_eq_hexLower (src : Bytes) : EncodeToString src = hexLower src := by
  induction src with
  | nil => rfl
  | cons v vs ih => rw [EncodeToString_cons, ih, hexLower]

theorem hexLower_length (src : Bytes) : (hexLower src).length = 2 * src.length := by
  induction src with
  | nil => rfl
  | cons v vs ih => simp only [hexLower, List.length_cons, ih]; omega

/-! ## Lemmas: response checks -/

theorem xmlResp_dataTagContent_ok {r d : Bytes} (h : P24.dataTagContent r = .ret (.ok d)) :
    xmlResp.dataTagContent r = .ret (.ok d) := by
  simp only [xmlResp.dataTagContent, h]

theorem xmlResp_commonResp_ok {Req Resp : Type} (x : XML Req Resp) {r : Bytes}
    {s : MerchantSign} (h : x.commonResp r = .ok s) : xmlResp.commonResp x r = .ok s := by
  simp only [xmlResp.commonResp, h]

theorem VerifySign_eq_none_iff (h : Digests) (m : Merchant) (data : Bytes) (s : MerchantSign) :
    m.VerifySign h data s = none ↔ s = m.Sign h data := by
  unfold Merchant.VerifySign
  by_cases hs : s = m.Sign h data <;> simp [hs]

/-- When `DoContext` returns nil, the request was sent, the body was read and
every check of the body passed. -/
theorem DoContext_nil_inv {Req Resp : Type} (c : Client Req Resp) (url method : String)
    (req : Req) (resp resp1 : Resp) (h : c.DoContext url method req resp = .ret (none, resp1)) :
    ∃ marshalled status body,
      c.xml.Marshal req = .ok marshalled ∧
      c.http (sentRequest url method marshalled) = .ok ⟨status, .ok body⟩ ∧
      status < 300 ∧
      xmlResp.CheckErr c.xml body = none ∧
      xmlResp.CheckContent c.xml body = .ret none ∧
      xmlResp.VerifySign c.digests c.xml body c.m = .ret none ∧
      c.xml.Unmarshal body resp = (none, resp1) := by
  unfold Client.DoContext at h
  split at h
  · simp at h
  · rename_i marshalled hm
    simp only at h
    split at h
    · simp at h
    · split at h
      · simp at h
      · rename_i httpResp hd
        obtain ⟨status, rbody⟩ := httpResp
        split at h
        · simp at h
        · rename_i body hb
          simp only at hb
          subst hb
          split at h
          · simp at h
          · rename_i hs
            split at h
            · simp at h
            · rename_i he
              split at h
              · simp at h
              · simp at h
              · rename_i hc
                split at h
                · simp at h
                · simp at h
                · rename_i hv
                  split at h
                  · simp at h
                  · rename_i r1 hu
                    simp only [Outcome.ret.injEq, Prod.mk.injEq, true_and] at h
                    subst h
                    refine ⟨marshalled, status, body, hm, hd, ?_, he, hc, hv, hu⟩
                    simp only [ge_iff_le, not_le] at hs
                    exact hs

/-! ## Claims C1, C2 -/

/-- C1: for every merchant and every byte sequence, `Sign` returns the merchant's
id together with hexLower(SHA1(hexLower(MD5(data ++ Pass)))): the MD5 digest
reaches SHA1 as hexadecimal text, twice as long as the binary digest. -/
theorem C1_sign_is_sha1_of_hex_md5 (h : Digests) (m : Merchant) (data : Bytes) :
    (m.Sign h data).ID = m.ID ∧
    (m.Sign h data).Sign = hexLower (h.sha1Sum (hexLower (h.md5Sum (data ++ m.Pass)))) ∧
    (hexLower (h.md5Sum (data ++ m.Pass))).length = 2 * (h.md5Sum (data ++ m.Pass)).length := by
  refine ⟨rfl, ?_, hexLower_length _⟩
  simp only [Merchant.Sign, EncodeToString_eq_hexLower]

/-- C2: `Sign` is deterministic and self-verifying: two calls on the same
merchant and data return equal values, and `VerifySign` accepts the value that
`Sign` returns. -/
theorem C2_sign_deterministic_self_verifying (h : Digests) (m : Merchant) (data : Bytes) :
    m.Sign h data = m.Sign h data ∧ m.VerifySign h data (m.Sign h data) = none := by
  refine ⟨rfl, ?_⟩
  simp [Merchant.VerifySign]

/-- C3: `DoContext` never accepts an unverified response. For a response with
status below 300 whose body shows no in-band error and has a readable envelope
and `<data>` fragment (what `CheckContent` checks), a declared merchant signature
different from `Sign` of the fragment makes `DoContext` return the `*Error`
"xml response with invalid signature" and leave `resp` as it was; and whenever
`DoContext` returns nil, `xmlResp.VerifySign` succeeded on the body received. -/
theorem C3_unverified_response_rejected {Req Resp : Type} (c : Client Req Resp)
    (url method : String) (req : Req) (resp : Resp) :
    (∀ (marshalled body d : Bytes) (status : Int) (declared : MerchantSign),
      c.xml.Marshal req = .ok marshalled →
      c.newRequestErr method url = none →
      c.http (sentRequest url method marshalled) = .ok ⟨status, .ok body⟩ →
      status < 300 →
      xmlResp.CheckErr c.xml body = none →
      P24.dataTagContent body = .ret (.ok d) →
      c.xml.commonResp body = .ok declared →
      declared ≠ c.m.Sign c.digests d →
      xmlResp.CheckContent c.xml body = .ret none ∧
      c.DoContext url method req resp =
        .ret (some (.p24 { Err := "xml response with invalid signature", URL := url,
                           Method := method, Req := some (xmlHeader ++ marshalled),
                           Resp := some body }), resp)) ∧
    (∀ resp1 : Resp, c.DoContext url method req resp = .ret (none, resp1) →
      ∃ marshalled status body,
        c.http (sentRequest url method marshalled) = .ok ⟨status, .ok body⟩ ∧
        xmlResp.VerifySign c.digests c.xml body c.m = .ret none) := by
  constructor
  · intro marshalled body d status declared hm hn hd hs he hdata hdecl hne
    have hcc : xmlResp.CheckContent c.xml body = .ret none := by
      simp only [xmlResp.CheckContent, xmlResp_commonResp_ok _ hdecl,
        xmlResp_dataTagContent_ok hdata]
    have hv : xmlResp.VerifySign c.digests c.xml body c.m = .ret (some "invalid signature") := by
      simp only [xmlResp.VerifySign, xmlResp_commonResp_ok _ hdecl,
        xmlResp_dataTagContent_ok hdata, Merchant.VerifySign, ne_eq, hne, not_false_eq_true,
        if_true]
    refine ⟨hcc, ?_⟩
    have hd1 := hd
    simp only [sentRequest] at hd1
    have hs1 : ¬ status ≥ 300 := by omega
    simp only [Client.DoContext, hm, hn, hd1, hs1, if_false, he, hcc, hv, newError]
  · intro resp1 h
    obtain ⟨marshalled, status, body, -, hd, -, -, -, hv, -⟩ :=
      DoContext_nil_inv c url method req resp resp1 h
    exact ⟨marshalled, status, body, hd, hv⟩

/-- C3 at the demo client: a body whose declared signature is not the one of its
fragment is refused, and a nil result comes with a verified body. -/
theorem C3_unverified_response_rejected_witness :
    (demoClient ⟨ascii "75482", ascii "00"⟩).DoContext "https://api" "POST" () () =
        .ret (some (.p24 { Err := "xml response with invalid signature", URL := "https://api",
                           Method := "POST",
                           Req := some (xmlHeader ++ ascii "<request></request>"),
                           Resp := some demoBody }), ()) ∧
    ∃ marshalled status body,
      (demoClient ⟨ascii "75482", ascii "30"⟩).http (sentRequest "https://api" "POST" marshalled)
        = .ok ⟨status, .ok body⟩ ∧
      xmlResp.VerifySign demoDigests (demoXML ⟨ascii "75482", ascii "30"⟩) body
        ⟨ascii "75482", ascii "secret"⟩ = .ret none :=
  ⟨((C3_unverified_response_rejected (demoClient ⟨ascii "75482", ascii "00"⟩)
      "https://api" "POST" () ()).1 (ascii "<request></request>") demoBody (ascii "x") 200
      ⟨ascii "75482", ascii "00"⟩ rfl rfl rfl (by decide) rfl (by decide) rfl (by decide)).2,
   (C3_unverified_response_rejected (demoClient ⟨ascii "75482", ascii "30"⟩)
      "https://api" "POST" () ()).2 () (by decide)⟩

/-- C4: `CheckCardNumber` returns nil exactly for the strings of sixteen ASCII
digits; a string of another length or with a byte that is not a digit gets an
error. -/
theorem C4_card_number_sixteen_digits (card : Bytes) :
    CheckCardNumber card = none ↔ card.length = 16 ∧ ∀ b ∈ card, 48 ≤ b ∧ b ≤ 57 := by
  unfold CheckCardNumber onlyNumbers
  by_cases hl : card.length = 16
  · have hne : card.isEmpty = false := by
      cases card with
      | nil => simp at hl
      | cons b bs => rfl
    simp only [hl, ne_eq, not_true_eq_false, if_false, hne, Bool.not_false, Bool.true_and,
      true_and]
    by_cases ha : card.all isDigit = true
    · simp only [ha, Bool.not_true, Bool.false_eq_true, if_false, true_iff]
      intro b hb
      have := List.all_eq_true.mp ha b hb
      simpa [isDigit] using this
    · have hf : card.all isDigit = false := by simpa using ha
      simp only [hf, Bool.not_false, if_true, reduceCtorEq, false_iff]
      intro hall
      apply ha
      apply List.all_eq_true.mpr
      intro b hb
      simpa [isDigit] using hall b hb
  · simp [hl]

/-- C5, as the code has it: `Validate` returns nil exactly when the start is not
after the end in whole seconds of Unix time, the end is at most 90 days (90*24h)
after the start, and `CheckCardNumber` accepts the card; in every other case it
returns an error. -/
theorem C5_validate_iff (r : StatementsOpts) :
    r.Validate = none ↔
      r.StartDate.Unix ≤ r.EndDate.Unix ∧
      r.EndDate.unixNano - r.StartDate.unixNano ≤ 90 * 24 * Hour ∧
      CheckCardNumber r.CardNumber = none := by
  unfold StatementsOpts.Validate
  by_cases h1 : r.StartDate.Unix > r.EndDate.Unix
  · simp only [h1, if_true, reduceCtorEq, false_iff]
    omega
  · have h1a : r.StartDate.Unix ≤ r.EndDate.Unix := by omega
    by_cases h2 : r.EndDate.Sub r.StartDate > 90 * 24 * Hour
    · simp only [h1, if_false, h2, if_true, reduceCtorEq, false_iff]
      intro hc
      have h3 := hc.2.1
      revert h2
      simp only [Time.Sub, Hour, Second, minDuration, maxDuration] at h3 ⊢
      split_ifs <;> omega
    · have h2a : r.EndDate.unixNano - r.StartDate.unixNano ≤ 90 * 24 * Hour := by
        revert h2
        simp only [Time.Sub, Hour, Second, minDuration, maxDuration]
        split_ifs <;> omega
      simp only [h1, if_false, h2, h1a, h2a, true_and]
      cases hcn : CheckCardNumber r.CardNumber <;> simp

/-- C5 fails as stated: with the start half a second after the end inside one
second of Unix time, `Validate` returns nil although the start is after the
end. -/
theorem C5_counterexample :
    StatementsOpts.Validate
        { StartDate := ⟨1500000000⟩, EndDate := ⟨1200000000⟩,
          CardNumber := ascii "1234567890123456", commonOpts := ⟨[], 0, 0⟩ } = none ∧
    ¬ ((⟨1500000000⟩ : Time).unixNano ≤ (⟨1200000000⟩ : Time).unixNano) := by
  decide

/-! ## Lemmas: decimal numerals -/

theorem formatBits_append (fuel n : Nat) (acc : Bytes) :
    formatBits fuel n acc = formatBits fuel n [] ++ acc := by
  induction fuel generalizing n acc with
  | zero => rfl
  | succ fuel ih =>
    simp only [formatBits]
    split
    · rfl
    · rw [ih (n / 10) ((48 + n % 10) :: acc), ih (n / 10) [48 + n % 10]]
      simp

theorem formatBits_fuel (f1 f2 n : Nat) (acc : Bytes) (h1 : n < f1) (h2 : n < f2) :
    formatBits f1 n acc = formatBits f2 n acc := by
  induction f1 generalizing f2 n acc with
  | zero => omega
  | succ f1 ih =>
    cases f2 with
    | zero => omega
    | succ f2 =>
      simp only [formatBits]
      split
      · rfl
      · exact ih f2 (n / 10) _ (by omega) (by omega)

theorem FormatUint_lt (n : Nat) (h : n < 10) : FormatUint n = [48 + n] := by
  simp only [FormatUint, formatBits, h, if_true]

theorem FormatUint_ge (n : Nat) (h : 10 ≤ n) :
    FormatUint n = FormatUint (n / 10) ++ [48 + n % 10] := by
  have hn : ¬ n < 10 := by omega
  show formatBits (n + 1) n [] = formatBits (n / 10 + 1) (n / 10) [] ++ [48 + n % 10]
  rw [formatBits]
  simp only [hn, if_false]
  rw [formatBits_append, formatBits_fuel n (n / 10 + 1) (n / 10) [] (by omega) (by omega)]

theorem FormatUint_hundred (n : Nat) (h : 100 ≤ n) :
    FormatUint n = FormatUint (n / 100) ++ [48 + n / 10 % 10, 48 + n % 10] := by
  rw [FormatUint_ge n (by omega), FormatUint_ge (n / 10) (by omega), Nat.div_div_eq_div_mul]
  simp

theorem FormatUint_two (n : Nat) (h1 : 10 ≤ n) (h2 : n < 100) :
    FormatUint n = [48 + n / 10 % 10, 48 + n % 10] := by
  rw [FormatUint_ge n h1, FormatUint_lt (n / 10) (by omega)]
  have : n / 10 % 10 = n / 10 := Nat.mod_eq_of_lt (by omega)
  simp [this]

theorem FormatUint_digits (n : Nat) : ∀ b ∈ FormatUint n, 48 ≤ b ∧ b ≤ 57 := by
  induction n using Nat.strong_induction_on with
  | _ n ih =>
    by_cases h : n < 10
    · rw [FormatUint_lt n h]
      intro b hb
      simp only [List.mem_singleton] at hb
      omega
    · rw [FormatUint_ge n (by omega)]
      intro b hb
      rcases List.mem_append.mp hb with hb | hb
      · exact ih (n / 10) (by omega) b hb
      · simp only [List.mem_singleton] at hb
        omega

theorem FormatUint_cons (n : Nat) : ∃ c rest, FormatUint n = c :: rest ∧ 48 ≤ c ∧ c ≤ 57 := by
  have hd := FormatUint_digits n
  cases hf : FormatUint n with
  | nil =>
    by_cases h : n < 10
    · rw [FormatUint_lt n h] at hf
      simp at hf
    · rw [FormatUint_ge n (by omega)] at hf
      simp at hf
  | cons c rest =>
    refine ⟨c, rest, rfl, ?_⟩
    apply hd
    rw [hf]
    simp

/-! ## Lemmas: searching a text -/

theorem ascii_dot : ascii "." = [46] := rfl

theorem ascii_dot00 : ascii ".00" = [46, 48, 48] := rfl

theorem ascii_00 : ascii "00" = [48, 48] := rfl

theorem indexFrom_skip (p : Nat) (sep xs ys : Bytes) (i : Nat) (h : p ∉ xs) :
    indexFrom (p :: sep) (xs ++ ys) i = indexFrom (p :: sep) ys (i + xs.length) := by
  induction xs generalizing i with
  | nil => simp
  | cons x xs ih =>
    have hx : p ≠ x := fun e => h (by simp [e])
    have hxs : p ∉ xs := fun e => h (by simp [e])
    have hp : List.isPrefixOf (p :: sep) (x :: (xs ++ ys)) = false := by
      simp [List.isPrefixOf, hx]
    rw [List.cons_append, indexFrom, hp]
    simp only [Bool.false_eq_true, if_false, List.length_cons]
    rw [ih (i + 1) hxs]
    congr 1
    omega

theorem Index_absent (p : Nat) (sep s : Bytes) (h : p ∉ s) : Index s (p :: sep) = -1 := by
  have := indexFrom_skip p sep s [] 0 h
  simp only [List.append_nil] at this
  rw [Index, this]
  simp [indexFrom, List.isPrefixOf]

theorem Index_dot (xs ys : Bytes) (h : 46 ∉ xs) : Index (xs ++ 46 :: ys) [46] = xs.length := by
  rw [Index, indexFrom_skip 46 [] xs _ 0 h]
  simp [indexFrom, List.isPrefixOf]

theorem ReplaceFirst_dot (xs ys : Bytes) (h : 46 ∉ xs) :
    ReplaceFirst (xs ++ 46 :: ys) [46] [] = xs ++ ys := by
  simp only [ReplaceFirst, Index_dot xs ys h]
  have : ((xs.length : Int) = -1) = False := by
    simp only [eq_iff_iff, iff_false]; omega
  simp only [this, if_false, Int.toNat_ofNat, List.take_left', List.append_nil, List.length_singleton]
  rw [List.drop_append_eq_append_drop]
  simp

/-! ## Lemmas: the text of an amount -/

theorem ascii_0dot0 : ascii "0.0" = [48, 46, 48] := rfl

theorem ascii_0dot : ascii "0." = [48, 46] := rfl

theorem FormatInt_eq (a : Int) : FormatInt a = minusSign a ++ FormatUint a.natAbs := by
  unfold FormatInt minusSign
  split <;> simp

theorem minusSign_no_dot (a : Int) : 46 ∉ minusSign a := by
  unfold minusSign
  split <;> simp

theorem FormatUint_no_dot (n : Nat) : 46 ∉ FormatUint n := by
  intro h
  have := FormatUint_digits n 46 h
  omega

theorem ReplaceFirst_dot00 (A : Bytes) (d1 d0 : Nat) (hA : 46 ∉ A) (h1 : 48 ≤ d1) (h0 : 48 ≤ d0) :
    ReplaceFirst (A ++ [46, d1, d0]) [46, 48, 48] [] =
      if d1 = 48 ∧ d0 = 48 then A else A ++ [46, d1, d0] := by
  have hi : Index (A ++ [46, d1, d0]) [46, 48, 48] =
      if d1 = 48 ∧ d0 = 48 then (A.length : Int) else -1 := by
    rw [Index, indexFrom_skip 46 [48, 48] A _ 0 hA]
    have e1 : ¬ 46 = d1 := by omega
    have e0 : ¬ 46 = d0 := by omega
    by_cases hd : d1 = 48 ∧ d0 = 48
    · obtain ⟨rfl, rfl⟩ := hd
      simp [indexFrom, List.isPrefixOf]
    · have hd' : ¬ (48 = d1 ∧ 48 = d0) := fun h => hd ⟨h.1.symm, h.2.symm⟩
      simp [indexFrom, List.isPrefixOf, hd, hd', e1, e0]
  unfold ReplaceFirst
  simp only [hi]
  by_cases hd : d1 = 48 ∧ d0 = 48
  · have hne : ¬ ((A.length : Int) = -1) := by omega
    simp only [hd, and_self, if_true, hne, if_false, Int.toNat_ofNat, List.take_left',
      List.append_nil, List.length_cons, List.length_nil]
    rw [List.drop_append_eq_append_drop]
    simp
  · simp only [hd, if_false, if_true]

theorem MarshalText_eq (a : Int) :
    Amount.MarshalText a =
      if a.natAbs % 100 = 0 then minusSign a ++ FormatUint (a.natAbs / 100)
      else minusSign a ++ FormatUint (a.natAbs / 100) ++
        [46, 48 + a.natAbs / 10 % 10, 48 + a.natAbs % 10] := by
  have hpre : Amount.MarshalText a =
      ReplaceFirst ((minusSign a ++ FormatUint (a.natAbs / 100)) ++
        [46, 48 + a.natAbs / 10 % 10, 48 + a.natAbs % 10]) [46, 48, 48] [] := by
    unfold Amount.MarshalText
    simp only [FormatInt_eq, ascii_dot00]
    congr 1
    by_cases h10 : -10 < a ∧ a < 10
    · have hm : a.natAbs < 10 := by omega
      have hq : a.natAbs / 100 = 0 := by omega
      have hd : a.natAbs / 10 % 10 = 0 := by omega
      have hr : a.natAbs % 10 = a.natAbs := by omega
      simp only [h10, and_self, if_true, FormatUint_lt _ hm, hq, hd, hr,
        FormatUint_lt 0 (by omega), List.length_append, List.length_singleton,
        Nat.add_sub_cancel, List.take_left', List.drop_left', ascii_0dot0]
      simp
    · have hm : 10 ≤ a.natAbs := by omega
      by_cases h100 : -100 < a ∧ a < 100
      · have hm2 : a.natAbs < 100 := by omega
        have hq : a.natAbs / 100 = 0 := by omega
        have hlen : (minusSign a ++ [48 + a.natAbs / 10 % 10, 48 + a.natAbs % 10]).length - 2
            = (minusSign a).length := by simp
        simp only [h10, if_false, h100, and_self, if_true, FormatUint_two _ hm hm2, hq,
          FormatUint_lt 0 (by omega), hlen, List.take_left', List.drop_left', ascii_0dot]
        simp
      · have hm2 : 100 ≤ a.natAbs := by omega
        have hlen : (minusSign a ++ (FormatUint (a.natAbs / 100) ++
            [48 + a.natAbs / 10 % 10, 48 + a.natAbs % 10])).length - 2
            = (minusSign a ++ FormatUint (a.natAbs / 100)).length := by
          simp only [List.length_append, List.length_cons, List.length_nil]
          omega
        simp only [h10, if_false, h100, FormatUint_hundred _ hm2]
        rw [← List.append_assoc] at hlen ⊢
        simp only [hlen, List.take_left', List.drop_left', ascii_dot]
        simp
  rw [hpre, ReplaceFirst_dot00 _ _ _ _ (by omega) (by omega)]
  · by_cases hz : a.natAbs % 100 = 0
    · have h1 : 48 + a.natAbs / 10 % 10 = 48 ∧ 48 + a.natAbs % 10 = 48 := by omega
      simp only [h1, and_self, if_true, hz]
    · have h1 : ¬ (48 + a.natAbs / 10 % 10 = 48 ∧ 48 + a.natAbs % 10 = 48) := by omega
      simp only [h1, if_false, hz]
  · intro h
    rcases List.mem_append.mp h with h | h
    · exact minusSign_no_dot a h
    · exact FormatUint_no_dot _ h

/-! ## Lemmas: reading a numeral -/

theorem parseUintLoop_append (xs ys : Bytes) (n k : Nat) (h : parseUintLoop xs n = .ok k) :
    parseUintLoop (xs ++ ys) n = parseUintLoop ys k := by
  induction xs generalizing n with
  | nil =>
    simp only [parseUintLoop, Except.ok.injEq] at h
    rw [List.nil_append, h]
  | cons x xs ih =>
    rw [List.cons_append]
    by_cases hx : 48 ≤ x ∧ x ≤ 57
    · by_cases hc : n ≥ 18446744073709551615 / 10 + 1
      · simp only [parseUintLoop, hx, and_self, if_true, hc, reduceCtorEq] at h
      · by_cases hw : (n * 10 % 18446744073709551616 + (x - 48)) % 18446744073709551616 <
            n * 10 % 18446744073709551616 ∨
            (n * 10 % 18446744073709551616 + (x - 48)) % 18446744073709551616 >
              18446744073709551615
        · simp only [parseUintLoop, hx, and_self, if_true, hc, if_false, hw, reduceCtorEq] at h
        · simp only [parseUintLoop, hx, and_self, if_true, hc, if_false, hw] at h ⊢
          exact ih _ h
    · simp only [parseUintLoop, hx, if_false, reduceCtorEq] at h

theorem parseUintLoop_digit (d n : Nat) (cs : Bytes) (hd : d < 10)
    (hn : n * 10 + d < 18446744073709551616) :
    parseUintLoop ((48 + d) :: cs) n = parseUintLoop cs (n * 10 + d) := by
  have h1 : 48 ≤ 48 + d ∧ 48 + d ≤ 57 := by omega
  have h2 : ¬ n ≥ 18446744073709551615 / 10 + 1 := by omega
  have h3 : n * 10 % 18446744073709551616 = n * 10 := Nat.mod_eq_of_lt (by omega)
  have h4 : (n * 10 + (48 + d - 48)) % 18446744073709551616 = n * 10 + d := by
    rw [Nat.add_sub_cancel_left]
    exact Nat.mod_eq_of_lt hn
  have h5 : ¬ (n * 10 + d < n * 10 ∨ n * 10 + d > 18446744073709551615) := by omega
  rw [parseUintLoop]
  simp only [h1, and_self, if_true, h2, if_false, h3, h4, h5]

theorem parseUintLoop_FormatUint (m : Nat) (h : m < 18446744073709551616) :
    parseUintLoop (FormatUint m) 0 = .ok m := by
  induction m using Nat.strong_induction_on with
  | _ m ih =>
    by_cases hm : m < 10
    · rw [FormatUint_lt m hm, parseUintLoop_digit m 0 [] hm (by omega)]
      simp [parseUintLoop]
    · rw [FormatUint_ge m (by omega),
        parseUintLoop_append _ _ 0 (m / 10) (ih (m / 10) (by omega) (by omega)),
        parseUintLoop_digit (m % 10) (m / 10) [] (by omega) (by omega)]
      simp only [parseUintLoop, Except.ok.injEq]
      omega

theorem parseUintLoop_nondigit (s : Bytes) (n : Nat) (h : ∃ b ∈ s, ¬ (48 ≤ b ∧ b ≤ 57)) :
    ∃ e, parseUintLoop s n = .error e := by
  induction s generalizing n with
  | nil => simp at h
  | cons c cs ih =>
    unfold parseUintLoop
    by_cases hc : 48 ≤ c ∧ c ≤ 57
    · have hcs : ∃ b ∈ cs, ¬ (48 ≤ b ∧ b ≤ 57) := by
        obtain ⟨b, hb, hnb⟩ := h
        rcases List.mem_cons.mp hb with e | hb
        · exact absurd (e ▸ hc) hnb
        · exact ⟨b, hb, hnb⟩
      simp only [hc, and_self, if_true]
      split
      · exact ⟨_, rfl⟩
      · split
        · exact ⟨_, rfl⟩
        · exact ih _ hcs
    · simp only [hc, if_false]
      exact ⟨_, rfl⟩

theorem ParseInt_signed (a : Int) (c : Nat) (rest : Bytes) (hc : 48 ≤ c ∧ c ≤ 57)
    (hp : parseUintLoop (c :: rest) 0 = .ok a.natAbs)
    (hr : minInt64 ≤ a ∧ a ≤ maxInt64) :
    ParseInt (minusSign a ++ c :: rest) = .ok a := by
  unfold minInt64 maxInt64 at hr
  by_cases ha : a < 0
  · have h1 : ¬ (a.natAbs > 9223372036854775808) := by omega
    have h2 : -|a| = a := by rw [abs_of_neg ha, neg_neg]
    simp [minusSign, ha, ParseInt, ParseUint, hp, h1, h2]
  · have h1 : ¬ (a.natAbs ≥ 9223372036854775808) := by omega
    have h2 : |a| = a := abs_of_nonneg (by omega)
    have h3 : ¬ c = 45 := by omega
    have h4 : ¬ c = 43 := by omega
    simp [minusSign, ha, ParseInt, ParseUint, hp, h1, h2, h3, h4]

theorem optSignDigits_append (x ys : Bytes) (h : optSignDigits x = false) :
    optSignDigits (x ++ ys) = false := by
  cases x with
  | nil => simp [optSignDigits] at h
  | cons c cs =>
    simp only [List.cons_append, optSignDigits, Bool.and_eq_false_iff, List.all_append] at h ⊢
    rcases h with h | h
    · exact Or.inl h
    · exact Or.inr (by simp [h])

theorem ParseInt_error (s : Bytes) (h : optSignDigits s = false) :
    ∃ e, ParseInt s = .error e := by
  cases s with
  | nil => simp [optSignDigits] at h
  | cons c cs =>
    have key : ∀ t : Bytes, (∃ b ∈ t, ¬ (48 ≤ b ∧ b ≤ 57)) →
        ∃ e, ParseUint t = .error e := by
      intro t ht
      unfold ParseUint
      split
      · exact ⟨_, rfl⟩
      · exact parseUintLoop_nondigit t 0 ht
    have hall : ∀ t : Bytes, t.all isDigit = false → ∃ b ∈ t, ¬ (48 ≤ b ∧ b ≤ 57) := by
      intro t ht
      simp only [List.all_eq_false, isDigit, Bool.and_eq_true, decide_eq_true_eq] at ht
      obtain ⟨b, hb, hnb⟩ := ht
      exact ⟨b, hb, hnb⟩
    simp only [optSignDigits, Bool.and_eq_false_iff, Bool.or_eq_false_iff, beq_eq_false_iff_ne,
      ne_eq] at h
    have hbad : ∃ b ∈ (if c = 43 ∨ c = 45 then cs else c :: cs), ¬ (48 ≤ b ∧ b ≤ 57) := by
      rcases h with ⟨⟨h43, h45⟩, hd⟩ | h
      · have hs : ¬ (c = 43 ∨ c = 45) := by omega
        simp only [hs, if_false]
        refine ⟨c, by simp, ?_⟩
        simpa [isDigit] using hd
      · obtain ⟨b, hb, hnb⟩ := hall cs h
        split
        · exact ⟨b, hb, hnb⟩
        · exact ⟨b, by simp [hb], hnb⟩
    obtain ⟨e, he⟩ := key _ hbad
    refine ⟨e, ?_⟩
    simp only [ParseInt, he]

/-! ## Lemmas: parsing an amount -/

theorem UnmarshalText_no_dot (text : Bytes) (hne : text ≠ []) (h : 46 ∉ text) :
    Amount.UnmarshalText text = ParseInt (text ++ [48, 48]) := by
  have hl : ¬ text.length = 0 := by
    intro e
    exact hne (List.length_eq_zero.mp e)
  have hi : Index (text ++ [48, 48]) [46] = -1 := by
    apply Index_absent
    simp [h]
  simp only [Amount.UnmarshalText, hl, if_false, ascii_00, ascii_dot, hi, ne_eq, not_true_eq_false]

theorem UnmarshalText_dot (I F : Bytes) (h : 46 ∉ I) :
    Amount.UnmarshalText (I ++ 46 :: F) = ParseInt (I ++ (F ++ [48, 48]).take 2) := by
  have hl : ¬ (I ++ 46 :: F).length = 0 := by simp
  have hs : (I ++ 46 :: F) ++ [48, 48] = I ++ 46 :: (F ++ [48, 48]) := by simp
  have hne : ¬ ((I.length : Int) = -1) := by omega
  have ht : ((I.length : Int) + 3).toNat = I.length + 3 := by omega
  have htake : List.take (I.length + 3) (I ++ 46 :: (F ++ [48, 48])) =
      I ++ 46 :: (F ++ [48, 48]).take 2 := by
    rw [List.take_append]
    rfl
  simp only [Amount.UnmarshalText, hl, if_false, ascii_00, ascii_dot, hs, Index_dot _ _ h, ne_eq,
    hne, not_false_eq_true, if_true, ht, htake, ReplaceFirst_dot _ _ h]

theorem parseUintLoop_two (q d1 d0 : Nat) (h1 : d1 < 10) (h0 : d0 < 10)
    (h : q * 100 + d1 * 10 + d0 < 18446744073709551616) :
    parseUintLoop [48 + d1, 48 + d0] q = .ok (q * 100 + d1 * 10 + d0) := by
  rw [parseUintLoop_digit d1 q _ h1 (by omega),
    parseUintLoop_digit d0 (q * 10 + d1) _ h0 (by omega)]
  simp only [parseUintLoop, Except.ok.injEq]
  omega

theorem ParseInt_FormatUint_two (a : Int) (d1 d0 : Nat) (h1 : d1 < 10) (h0 : d0 < 10)
    (hv : a.natAbs / 100 * 100 + d1 * 10 + d0 = a.natAbs)
    (hr : minInt64 ≤ a ∧ a ≤ maxInt64) :
    ParseInt (minusSign a ++ FormatUint (a.natAbs / 100) ++ [48 + d1, 48 + d0]) = .ok a := by
  obtain ⟨c, rest, hf, hc⟩ := FormatUint_cons (a.natAbs / 100)
  have hb : a.natAbs < 18446744073709551616 := by
    unfold minInt64 maxInt64 at hr
    omega
  have hp : parseUintLoop (c :: (rest ++ [48 + d1, 48 + d0])) 0 = .ok a.natAbs := by
    rw [← List.cons_append, ← hf,
      parseUintLoop_append _ _ 0 _ (parseUintLoop_FormatUint (a.natAbs / 100) (by omega)),
      parseUintLoop_two _ d1 d0 h1 h0 (by omega), hv]
  have := ParseInt_signed a c (rest ++ [48 + d1, 48 + d0]) hc hp hr
  rw [List.append_assoc, hf, List.cons_append]
  exact this

theorem UnmarshalText_MarshalText (a : Int) (hr : minInt64 ≤ a ∧ a ≤ maxInt64) :
    Amount.UnmarshalText (Amount.MarshalText a) = .ok a := by
  rw [MarshalText_eq]
  have hnd : 46 ∉ minusSign a ++ FormatUint (a.natAbs / 100) := by
    intro h
    rcases List.mem_append.mp h with h | h
    · exact minusSign_no_dot a h
    · exact FormatUint_no_dot _ h
  by_cases hz : a.natAbs % 100 = 0
  · simp only [hz, if_true]
    have hne : minusSign a ++ FormatUint (a.natAbs / 100) ≠ [] := by
      obtain ⟨c, rest, hf, -⟩ := FormatUint_cons (a.natAbs / 100)
      rw [hf]
      simp
    rw [UnmarshalText_no_dot _ hne hnd]
    exact ParseInt_FormatUint_two a 0 0 (by omega) (by omega) (by omega) hr
  · simp only [hz, if_false]
    rw [UnmarshalText_dot _ _ hnd]
    exact ParseInt_FormatUint_two a (a.natAbs / 10 % 10) (a.natAbs % 10) (by omega) (by omega)
      (by omega) hr

theorem FormatUint_eq_decimalNat (n : Nat) : FormatUint n = decimalNat n := by
  induction n using Nat.strong_induction_on with
  | _ n ih =>
    rw [decimalNat]
    by_cases h : n < 10
    · simp only [h, if_true, FormatUint_lt n h]
    · simp only [h, if_false, FormatUint_ge n (by omega), ih (n / 10) (by omega)]

theorem signedDigits_no_dot (I : Bytes) (h : signedDigits I = true) : I ≠ [] ∧ 46 ∉ I := by
  cases I with
  | nil => simp [signedDigits] at h
  | cons c cs =>
    refine ⟨by simp, ?_⟩
    have hall : ∀ t : Bytes, t.all isDigit = true → 46 ∉ t := by
      intro t ht hm
      have := List.all_eq_true.mp ht 46 hm
      simp [isDigit] at this
    simp only [signedDigits] at h
    intro hm
    rcases List.mem_cons.mp hm with e | hm
    · subst e
      simp [isDigit] at h
    · split at h
      · simp only [Bool.and_eq_true] at h
        exact hall cs h.2 hm
      · simp only [Bool.and_eq_true] at h
        exact hall cs h.2 hm

theorem keptPart_cases (text : Bytes) :
    (46 ∉ text ∧ keptPart text = text) ∨
    ∃ I F, text = I ++ 46 :: F ∧ 46 ∉ I ∧ keptPart text = I ++ F.take 2 := by
  have hsplit := List.takeWhile_append_dropWhile (fun b => b != 46) text
  have hI : 46 ∉ text.takeWhile (fun b => b != 46) := by
    intro hm
    have := List.mem_takeWhile_imp hm
    simp at this
  cases hd : text.dropWhile (fun b => b != 46) with
  | nil =>
    left
    rw [hd, List.append_nil] at hsplit
    refine ⟨by rw [← hsplit]; exact hI, ?_⟩
    simp only [keptPart, hd, List.drop_nil, List.take_nil, List.append_nil]
    exact hsplit
  | cons x F =>
    right
    have hx : x = 46 := by
      have := List.head?_dropWhile_not (fun b => b != 46) text
      rw [hd] at this
      simpa using this
    subst hx
    refine ⟨_, F, ?_, hI, ?_⟩
    · rw [← hd]
      exact hsplit.symm
    · simp only [keptPart, hd, List.drop_succ_cons, List.drop_zero]

theorem MarshalText_eq_formatRef (a : Int) : Amount.MarshalText a = formatRef a := by
  rw [MarshalText_eq]
  unfold formatRef
  by_cases hz : a % 100 = 0
  · have hz' : a.natAbs % 100 = 0 := by omega
    have hq : (a / 100).natAbs = a.natAbs / 100 := by omega
    simp only [hz, hz', if_true, decimalInt, hq, FormatUint_eq_decimalNat, minusSign]
    by_cases ha : a < 0
    · have : a / 100 < 0 := by omega
      simp [ha, this]
    · have : ¬ a / 100 < 0 := by omega
      simp [ha, this]
  · have hz' : ¬ a.natAbs % 100 = 0 := by omega
    have h1 : a.natAbs % 100 / 10 = a.natAbs / 10 % 10 := by omega
    have h0 : a.natAbs % 100 % 10 = a.natAbs % 10 := by omega
    simp only [hz, hz', if_false, FormatUint_eq_decimalNat, minusSign, h1, h0]
    simp

theorem MarshalText_tenths (a : Int) (h10 : a % 10 = 0) (h100 : a % 100 ≠ 0) :
    Amount.MarshalText a =
      minusSign a ++ decimalNat (a.natAbs / 100) ++ [46, 48 + a.natAbs / 10 % 10, 48] ∧
    46 ∉ minusSign a ++ decimalNat (a.natAbs / 100) ∧
    1 ≤ a.natAbs / 10 % 10 ∧ a.natAbs / 10 % 10 ≤ 9 := by
  have hz : ¬ a.natAbs % 100 = 0 := by omega
  have h0 : a.natAbs % 10 = 0 := by omega
  refine ⟨?_, ?_, by omega, by omega⟩
  · rw [MarshalText_eq]
    simp only [hz, if_false, h0, FormatUint_eq_decimalNat, Nat.add_zero]
  · rw [← FormatUint_eq_decimalNat]
    intro h
    rcases List.mem_append.mp h with h | h
    · exact minusSign_no_dot a h
    · exact FormatUint_no_dot _ h

/-! ## Claims C6 to C10 -/

/-- C6: the text of an amount parses back to the amount, for every int64 value:
`UnmarshalText(MarshalText(a))` succeeds and gives `a`. -/
theorem C6_amount_text_round_trip (a : Amount) (h : minInt64 ≤ a ∧ a ≤ maxInt64) :
    Amount.UnmarshalText (Amount.MarshalText a) = .ok a :=
  UnmarshalText_MarshalText a h

/-- C6 at the smallest int64, whose text is `-92233720368547758.08`. -/
theorem C6_amount_text_round_trip_witness :
    Amount.UnmarshalText (Amount.MarshalText (-9223372036854775808)) =
      .ok (-9223372036854775808) :=
  C6_amount_text_round_trip (-9223372036854775808) (by decide)

/-- C7: parsing truncates and never rounds. For an optionally signed non-empty
digit string `I` and every string `F`, of digits or not: with two or more bytes
in `F`, `I.F` parses as `I.` followed by the first two of them; with fewer, `F`
is padded with zeros to two digits, and `I` alone parses as `I.00`. So `123.6789` gives
12367 as `123.67` does, `1.5` gives 150 and `7` gives 700. -/
theorem C7_parse_truncates (I F : Bytes) (hI : signedDigits I = true) :
    (2 ≤ F.length →
      Amount.UnmarshalText (I ++ 46 :: F) = Amount.UnmarshalText (I ++ 46 :: F.take 2)) ∧
    (F.length < 2 →
      Amount.UnmarshalText (I ++ 46 :: F) =
        Amount.UnmarshalText (I ++ 46 :: (F ++ [48, 48]).take 2)) ∧
    Amount.UnmarshalText I = Amount.UnmarshalText (I ++ [46, 48, 48]) ∧
    Amount.UnmarshalText (ascii "123.6789") = .ok 12367 ∧
    Amount.UnmarshalText (ascii "123.67") = .ok 12367 ∧
    Amount.UnmarshalText (ascii "1.5") = .ok 150 ∧
    Amount.UnmarshalText (ascii "7") = .ok 700 := by
  obtain ⟨hne, hnd⟩ := signedDigits_no_dot I hI
  refine ⟨?_, ?_, ?_, by decide, by decide, by decide, by decide⟩
  · intro hlen
    rw [UnmarshalText_dot _ _ hnd, UnmarshalText_dot _ _ hnd]
    congr 2
    rw [List.take_append_of_le_length hlen,
      List.take_append_of_le_length (by simp [List.length_take]; omega)]
    simp [List.take_take]
  · intro _
    rw [UnmarshalText_dot _ _ hnd, UnmarshalText_dot _ _ hnd]
    congr 2
    have hG : (List.take 2 (F ++ [48, 48])).length = 2 := by simp [List.length_take]
    generalize List.take 2 (F ++ [48, 48]) = G at hG ⊢
    rw [List.take_append_of_le_length (by omega), List.take_of_length_le (by omega)]
  · rw [UnmarshalText_no_dot _ hne hnd, UnmarshalText_dot _ _ hnd]
    rfl

/-- C7 at `I = 123`, `F = 6789`: the two texts `123.6789` and `123.67` parse
alike. -/
theorem C7_parse_truncates_witness :
    Amount.UnmarshalText (ascii "123" ++ 46 :: ascii "6789") =
      Amount.UnmarshalText (ascii "123" ++ 46 :: (ascii "6789").take 2) :=
  (C7_parse_truncates (ascii "123") (ascii "6789") (by decide)).1 (by decide)

/-- C8 fails as stated: `1.23abc` is not a numeral and parses, to 123, because
everything after the second place behind the first `.` is cut before the text is
read. -/
theorem C8_counterexample : Amount.UnmarshalText (ascii "1.23abc") = .ok 123 := by
  decide

/-- C8, as the code has it: `UnmarshalText` returns an error for the empty text
and for every text whose kept part (the text up to the second byte after its
first `.`, that `.` taken out; the whole text when it has no `.`) has a byte
other than a sign in the first place that is no decimal digit. -/
theorem C8_parse_rejects (text : Bytes)
    (h : text = [] ∨ optSignDigits (keptPart text) = false) :
    ∃ e, Amount.UnmarshalText text = .error e := by
  rcases h with h | h
  · subst h
    exact ⟨.invalidText, rfl⟩
  · rcases keptPart_cases text with ⟨hnd, hk⟩ | ⟨I, F, ht, hnd, hk⟩
    · rw [hk] at h
      have hne : text ≠ [] := by
        intro e
        rw [e] at h
        simp [optSignDigits] at h
      rw [UnmarshalText_no_dot _ hne hnd]
      exact ParseInt_error _ (optSignDigits_append _ _ h)
    · rw [hk] at h
      rw [ht, UnmarshalText_dot _ _ hnd]
      apply ParseInt_error
      have : I ++ List.take 2 (F ++ [48, 48]) =
          (I ++ F.take 2) ++ List.take (2 - F.length) [48, 48] := by
        rw [List.take_append_eq_append_take, List.append_assoc]
      rw [this]
      exact optSignDigits_append _ _ h

/-- C8 at `abc` and at `1.2x`: both are refused. -/
theorem C8_parse_rejects_witness :
    (∃ e, Amount.UnmarshalText (ascii "abc") = .error e) ∧
    (∃ e, Amount.UnmarshalText (ascii "1.2x") = .error e) :=
  ⟨C8_parse_rejects (ascii "abc") (Or.inr (by decide)),
   C8_parse_rejects (ascii "1.2x") (Or.inr (by decide))⟩

/-- C9: `MarshalText` is the reference rendering for every amount: the bare
decimal integer `a/100` for a multiple of 100, and otherwise the sign, the integer
part, a `.` and two zero-padded digits. So 100 gives `1`, 0 gives `0`, 5 gives
`0.05`, -5 gives `-0.05`, 50 gives `0.50` and 3320 gives `33.20`. -/
theorem C9_marshal_is_reference_rendering :
    (∀ a : Amount, Amount.MarshalText a = formatRef a) ∧
    Amount.MarshalText 100 = ascii "1" ∧ Amount.MarshalText 0 = ascii "0" ∧
    Amount.MarshalText 5 = ascii "0.05" ∧ Amount.MarshalText (-5) = ascii "-0.05" ∧
    Amount.MarshalText 50 = ascii "0.50" ∧ Amount.MarshalText 3320 = ascii "33.20" := by
  exact ⟨MarshalText_eq_formatRef, by decide, by decide, by decide, by decide, by decide,
    by decide⟩

/-- C10 fails as stated: the text of -250 is `-2.50`, not `-2.5`. -/
theorem C10_counterexample :
    Amount.MarshalText (-250) = ascii "-2.50" ∧ Amount.MarshalText (-250) ≠ ascii "-2.5" := by
  decide

/-- C10, as the code has it: an amount that is a multiple of 10 and not of 100 is
written with two digits after the decimal point, the second one `0`: the sign,
the integer part (which has no `.`), a `.`, the tenths digit and `0`. -/
theorem C10_two_decimal_places (a : Amount) (h10 : a % 10 = 0) (h100 : a % 100 ≠ 0) :
    Amount.MarshalText a =
      minusSign a ++ decimalNat (a.natAbs / 100) ++ [46, 48 + a.natAbs / 10 % 10, 48] ∧
    46 ∉ minusSign a ++ decimalNat (a.natAbs / 100) ∧
    1 ≤ a.natAbs / 10 % 10 ∧ a.natAbs / 10 % 10 ≤ 9 :=
  MarshalText_tenths a h10 h100

/-- C10 at -250, whose text is `-2.50`. -/
theorem C10_two_decimal_places_witness :
    Amount.MarshalText (-250) = ascii "-2.50" := by
  have h := (C10_two_decimal_places (-250) (by decide) (by decide)).1
  rw [h]
  simp [minusSign, decimalNat, ascii]

/-! ## Lemmas: float64 rounding -/

theorem roundHalfEven_lower (num den : Nat) (hden : 0 < den) :
    2 * num ≤ 2 * (roundHalfEven num den * den) + den := by
  have hdm := Nat.div_add_mod num den
  have hlt := Nat.mod_lt num hden
  have hc : den * (num / den) = num / den * den := Nat.mul_comm _ _
  unfold roundHalfEven
  simp only
  split_ifs
  · omega
  · rw [Nat.add_mul]; omega
  · omega
  · rw [Nat.add_mul]; omega

theorem roundHalfEven_upper (num den : Nat) (hden : 0 < den) :
    2 * (roundHalfEven num den * den) ≤ 2 * num + den := by
  have hdm := Nat.div_add_mod num den
  have hlt := Nat.mod_lt num hden
  have hc : den * (num / den) = num / den * den := Nat.mul_comm _ _
  unfold roundHalfEven
  simp only
  split_ifs
  · omega
  · rw [Nat.add_mul]; omega
  · omega
  · rw [Nat.add_mul]; omega

theorem roundHalfEven_exact (m den : Nat) (hden : 0 < den) :
    roundHalfEven (den * m) den = m := by
  have h1 : den * m / den = m := Nat.mul_div_cancel_left m hden
  have h2 : den * m % den = 0 := Nat.mul_mod_right den m
  unfold roundHalfEven
  simp only [h1, h2]
  simp [hden]

theorem ulp_pos (fuel y : Nat) : 0 < ulp fuel y := by
  induction fuel generalizing y with
  | zero => simp [ulp]
  | succ f ih =>
    simp only [ulp]
    split
    · omega
    · have := ih (y / 2)
      omega

theorem ulp_small (fuel y : Nat) (h : y < 9007199254740992) : ulp fuel y = 1 := by
  cases fuel with
  | zero => rfl
  | succ f => simp only [ulp, h, if_true]

theorem ulp_mul_le (fuel y : Nat) (h1 : 4503599627370496 ≤ y) (h2 : y ≤ fuel) :
    ulp fuel y * 4503599627370496 ≤ y := by
  induction fuel generalizing y with
  | zero => omega
  | succ f ih =>
    simp only [ulp]
    split
    · omega
    · have := ih (y / 2) (by omega) (by omega)
      omega

theorem ulp_dvd (fuel y j : Nat) (h : y < 9007199254740992 * 2 ^ j) : ulp fuel y ∣ 2 ^ j := by
  induction fuel generalizing y j with
  | zero => simp [ulp]
  | succ f ih =>
    simp only [ulp]
    split
    · exact one_dvd _
    · rename_i hy
      cases j with
      | zero => simp at h; omega
      | succ j =>
        have h' : y / 2 < 9007199254740992 * 2 ^ j := by
          rw [pow_succ] at h
          omega
        rw [pow_succ, Nat.mul_comm (2 ^ j) 2]
        exact Nat.mul_dvd_mul_left 2 (ih (y / 2) j h')

theorem round53_lower_abs (num den : Nat) (hden : 0 < den) :
    2 * num ≤ 2 * (round53 num den * den) + den * ulp (num / den) (num / den) := by
  have hu := ulp_pos (num / den) (num / den)
  have := roundHalfEven_lower num (den * ulp (num / den) (num / den)) (Nat.mul_pos hden hu)
  have e : roundHalfEven num (den * ulp (num / den) (num / den)) *
      (den * ulp (num / den) (num / den)) =
      roundHalfEven num (den * ulp (num / den) (num / den)) * ulp (num / den) (num / den) * den := by
    ring
  unfold round53
  simp only
  omega

theorem round53_upper_abs (num den : Nat) (hden : 0 < den) :
    2 * (round53 num den * den) ≤ 2 * num + den * ulp (num / den) (num / den) := by
  have hu := ulp_pos (num / den) (num / den)
  have := roundHalfEven_upper num (den * ulp (num / den) (num / den)) (Nat.mul_pos hden hu)
  have e : roundHalfEven num (den * ulp (num / den) (num / den)) *
      (den * ulp (num / den) (num / den)) =
      roundHalfEven num (den * ulp (num / den) (num / den)) * ulp (num / den) (num / den) * den := by
    ring
  unfold round53
  simp only
  omega

theorem den_ulp_le (num den : Nat) (hden : 0 < den) (h : 4503599627370496 * den ≤ num) :
    4503599627370496 * (den * ulp (num / den) (num / den)) ≤ num := by
  have hy : 4503599627370496 ≤ num / den := by
    rw [Nat.le_div_iff_mul_le hden]
    exact h
  have h1 := ulp_mul_le (num / den) (num / den) hy (Nat.le_refl _)
  have h2 : num / den * den ≤ num := Nat.div_mul_le_self num den
  calc 4503599627370496 * (den * ulp (num / den) (num / den))
      = ulp (num / den) (num / den) * 4503599627370496 * den := by ring
    _ ≤ num / den * den := Nat.mul_le_mul_right den h1
    _ ≤ num := h2

theorem round53_lower (num den : Nat) (hden : 0 < den) (h : 4503599627370496 * den ≤ num) :
    9007199254740991 * num ≤ 9007199254740992 * (round53 num den * den) := by
  have h1 := round53_lower_abs num den hden
  have h2 := den_ulp_le num den hden h
  omega

theorem round53_upper (num den : Nat) (hden : 0 < den) (h : 4503599627370496 * den ≤ num) :
    9007199254740992 * (round53 num den * den) ≤ 9007199254740993 * num := by
  have h1 := round53_upper_abs num den hden
  have h2 := den_ulp_le num den hden h
  omega

theorem round53_exact (y den : Nat) (hden : 0 < den) (hu : ulp y y ∣ y) :
    round53 (den * y) den = y := by
  obtain ⟨m, hm⟩ := hu
  have hy : den * y / den = y := Nat.mul_div_cancel_left y hden
  unfold round53
  simp only [hy]
  have e : den * y = den * ulp y y * m := by
    rw [Nat.mul_assoc, ← hm]
  rw [e, roundHalfEven_exact m _ (Nat.mul_pos hden (ulp_pos y y)), Nat.mul_comm, ← hm]

theorem float64_exact (x : Nat) (hu : ulp x x ∣ x) : float64 x = x := by
  have := round53_exact x 1 (by omega) hu
  simpa [float64] using this

theorem float64_small (x : Nat) (h : x < 9007199254740992) : float64 x = x := by
  apply float64_exact
  rw [ulp_small x x h]
  exact one_dvd x

theorem float64_lower (x : Nat) : 9007199254740991 * x ≤ 9007199254740992 * float64 x := by
  by_cases h : x < 9007199254740992
  · rw [float64_small x h]
    omega
  · have := round53_lower x 1 (by omega) (by omega)
    simpa [float64] using this

theorem float64_upper (x : Nat) : 9007199254740992 * float64 x ≤ 9007199254740993 * x := by
  by_cases h : x < 9007199254740992
  · rw [float64_small x h]
    omega
  · have := round53_upper x 1 (by omega) (by omega)
    simpa [float64] using this

/-! ## Lemmas: the number of windows -/

theorem float64_days90 : float64 7776000000000000 = 7776000000000000 :=
  float64_small _ (by omega)

theorem ceilFloatQuot_cover (d : Nat) (h1 : 7776000000000000 < d)
    (h2 : d < 9223372036854775808) :
    d + 86400000000000 ≤ 91 * ceilFloatQuot d 7776000000000000 * 86400000000000 := by
  unfold ceilFloatQuot
  simp only [float64_days90]
  by_cases hs : d < 9007199254740992
  · rw [float64_small d hs]
    have hy : d * 4503599627370496 / 7776000000000000 < 9007199254740992 := by
      rw [Nat.div_lt_iff_lt_mul (by omega)]
      omega
    have hb := round53_lower_abs (d * 4503599627370496) 7776000000000000 (by omega)
    rw [ulp_small _ _ hy] at hb
    omega
  · have ha := float64_lower d
    have hb := round53_lower (float64 d * 4503599627370496) 7776000000000000 (by omega)
      (by omega)
    omega

theorem ulp_dvd_1024 (y : Nat) (h : y < 9223372036854775808) : ulp y y ∣ 1024 := by
  have := ulp_dvd y y 10 (by norm_num; omega)
  simpa using this

theorem float64_whole_days (k : Nat) (h : k ≤ 106751) :
    float64 (k * 86400000000000) = k * 86400000000000 := by
  apply float64_exact
  have h1 := ulp_dvd_1024 (k * 86400000000000) (by omega)
  have h2 : (1024 : Nat) ∣ k * 86400000000000 := ⟨k * 84375000000, by omega⟩
  exact Nat.dvd_trans h1 h2

theorem ceilFloatQuot_days (k : Nat) (h1 : 90 < k) (h2 : k ≤ 106751) :
    ceilFloatQuot (k * 86400000000000) 7776000000000000 = (k + 89) / 90 := by
  unfold ceilFloatQuot
  simp only [float64_days90, float64_whole_days k h2]
  by_cases hk : k % 90 = 0
  · have hq : k * 86400000000000 * 4503599627370496 =
        7776000000000000 * (k / 90 * 4503599627370496) := by omega
    have hd1 := ulp_dvd_1024 (k / 90 * 4503599627370496) (by omega)
    have hd2 : (1024 : Nat) ∣ k / 90 * 4503599627370496 :=
      ⟨k / 90 * 4398046511104, by omega⟩
    rw [hq, round53_exact _ _ (by omega) (Nat.dvd_trans hd1 hd2)]
    omega
  · have hl := round53_lower (k * 86400000000000 * 4503599627370496) 7776000000000000
      (by omega) (by omega)
    have hu := round53_upper (k * 86400000000000 * 4503599627370496) 7776000000000000
      (by omega) (by omega)
    have hkq : k = 90 * (k / 90) + k % 90 := (Nat.div_add_mod k 90).symm
    have hr : k % 90 < 90 := Nat.mod_lt k (by omega)
    generalize k / 90 = q at hkq
    generalize k % 90 = r at hkq hr hk
    subst hkq
    generalize round53 ((90 * q + r) * 86400000000000 * 4503599627370496) 7776000000000000 = b
      at hl hu
    have hA : b ≤ (q + 1) * 4503599627370496 := by omega
    have hB : q * 4503599627370496 + 1 ≤ b := by omega
    have he : (b + 4503599627370495) / 4503599627370496 = q + 1 := by omega
    have hf : (90 * q + r + 89) / 90 = q + 1 := by omega
    rw [he, hf]

/-! ## Lemmas: the windows -/

theorem Time_eq_iff (a b : Time) : a = b ↔ a.unixNano = b.unixNano := by
  cases a
  cases b
  simp

theorem splitLoop_length (endDate : Time) (card : Bytes) (k : Nat) (sd ed : Time) :
    (splitLoop endDate card k sd ed).length = k := by
  induction k generalizing sd ed with
  | zero => rfl
  | succ k ih => simp only [splitLoop, List.length_cons, ih]

theorem splitLoop_eq (endDate : Time) (card : Bytes) (k : Nat) (sd ed : Time) :
    splitLoop endDate card k sd ed = (List.range k).map (windowAt endDate card sd ed) := by
  induction k generalizing sd ed with
  | zero => rfl
  | succ k ih =>
    rw [List.range_succ_eq_map, List.map_cons, List.map_map, splitLoop, ih]
    congr 1
    · simp only [windowAt, Time.After, Time.Add, Hour, Second, StatementsOpts.mk.injEq,
        and_true, true_and, min_def, decide_eq_true_eq, Nat.cast_zero]
      constructor
      · rw [Time_eq_iff]
        simp
      · split_ifs <;> rw [Time_eq_iff] <;> simp only <;> omega
    · apply List.map_congr_left
      intro i _
      simp only [Function.comp, windowAt, Time.After, Time.Add, Hour, Second,
        StatementsOpts.mk.injEq, Time.mk.injEq, and_true, true_and, min_def,
        decide_eq_true_eq, Nat.succ_eq_add_one, Nat.cast_add, Nat.cast_one]
      constructor
      · omega
      · split_ifs <;> omega

theorem Split_eq (startDate endDate : Time) (card : Bytes) :
    SplitStatementsDateRange startDate endDate card =
      (List.range (splitCount startDate endDate)).map
        (windowAt endDate card startDate (startDate.Add (90 * 24 * Hour))) := by
  unfold SplitStatementsDateRange
  exact splitLoop_eq _ _ _ _ _

theorem splitCount_short (startDate endDate : Time)
    (h : endDate.unixNano - startDate.unixNano ≤ 90 * 24 * Hour) :
    splitCount startDate endDate = 1 := by
  have hs : ¬ endDate.Sub startDate > 90 * 24 * Hour := by
    revert h
    simp only [Time.Sub, Hour, Second, minDuration, maxDuration]
    split_ifs <;> omega
  simp only [splitCount, hs, if_false]

theorem splitCount_long (startDate endDate : Time)
    (h1 : 90 * 24 * Hour < endDate.unixNano - startDate.unixNano)
    (h2 : endDate.unixNano - startDate.unixNano ≤ maxDuration) :
    splitCount startDate endDate =
      ceilFloatQuot (endDate.unixNano - startDate.unixNano).toNat 7776000000000000 := by
  have hs : endDate.Sub startDate = endDate.unixNano - startDate.unixNano := by
    revert h1 h2
    simp only [Time.Sub, Hour, Second, minDuration, maxDuration]
    intro h1 h2
    split_ifs <;> omega
  have hgt : endDate.Sub startDate > 90 * 24 * Hour := by
    rw [hs]
    exact h1
  have e : (90 * 24 * Hour).toNat = 7776000000000000 := by decide
  rw [hs] at hgt
  simp only [splitCount, hs, hgt, if_true, e]

theorem splitCount_pos (startDate endDate : Time) : 1 ≤ splitCount startDate endDate := by
  unfold splitCount
  simp only
  split
  · rename_i h
    have hd : 7776000000000000 < (endDate.Sub startDate).toNat ∧
        (endDate.Sub startDate).toNat < 9223372036854775808 := by
      revert h
      simp only [Time.Sub, Hour, Second, minDuration, maxDuration]
      split_ifs <;> omega
    have hc := ceilFloatQuot_cover _ hd.1 hd.2
    have e : (90 * 24 * Hour).toNat = 7776000000000000 := by decide
    rw [e]
    omega
  · omega

theorem Split_getLast (startDate endDate : Time) (card : Bytes) :
    (SplitStatementsDateRange startDate endDate card).getLast? =
      some (windowAt endDate card startDate (startDate.Add (90 * 24 * Hour))
        (splitCount startDate endDate - 1)) := by
  have hp := splitCount_pos startDate endDate
  rw [Split_eq, List.getLast?_map, List.getLast?_range]
  have : ¬ splitCount startDate endDate = 0 := by omega
  simp only [this, if_false, Option.map_some']

theorem Split_head (startDate endDate : Time) (card : Bytes) :
    (SplitStatementsDateRange startDate endDate card).head? =
      some (windowAt endDate card startDate (startDate.Add (90 * 24 * Hour)) 0) := by
  have hp := splitCount_pos startDate endDate
  rw [Split_eq]
  obtain ⟨n, hn⟩ : ∃ n, splitCount startDate endDate = n + 1 :=
    ⟨splitCount startDate endDate - 1, by omega⟩
  rw [hn, List.range_succ_eq_map]
  rfl

theorem Split_short (startDate endDate : Time) (card : Bytes)
    (h : endDate.unixNano - startDate.unixNano ≤ 90 * 24 * Hour) :
    SplitStatementsDateRange startDate endDate card =
      [{ StartDate := startDate, EndDate := endDate, CardNumber := card,
         commonOpts := ⟨[], 0, 0⟩ }] := by
  rw [Split_eq, splitCount_short startDate endDate h]
  simp only [List.range_succ, List.range_zero, List.nil_append, List.map_cons, List.map_nil,
    windowAt, Time.Add, List.cons.injEq, and_true, StatementsOpts.mk.injEq, true_and]
  constructor
  · rw [Time_eq_iff]
    simp
  · rw [Time_eq_iff]
    simp only [Hour, Second] at h ⊢
    omega

theorem Split_windows_bounded (startDate endDate : Time) (card : Bytes) :
    ∀ w ∈ SplitStatementsDateRange startDate endDate card,
      w.EndDate.Sub w.StartDate ≤ 90 * 24 * Hour := by
  intro w hw
  rw [Split_eq] at hw
  obtain ⟨i, -, rfl⟩ := List.mem_map.mp hw
  simp only [windowAt, Time.Sub, Time.Add, Hour, Second, minDuration, maxDuration]
  split_ifs <;> omega

theorem Split_last_end (startDate endDate : Time) (card : Bytes)
    (h : endDate.unixNano - startDate.unixNano ≤ maxDuration) :
    (SplitStatementsDateRange startDate endDate card).getLast?.map StatementsOpts.EndDate =
      some endDate := by
  rw [Split_getLast]
  simp only [Option.map_some', windowAt, Time.Add, Option.some.injEq]
  rw [Time_eq_iff]
  simp only
  by_cases hs : endDate.unixNano - startDate.unixNano ≤ 90 * 24 * Hour
  · rw [splitCount_short _ _ hs]
    simp only [Hour, Second] at hs ⊢
    omega
  · have hl : 90 * 24 * Hour < endDate.unixNano - startDate.unixNano := by omega
    rw [splitCount_long _ _ hl h]
    have hd : 7776000000000000 < (endDate.unixNano - startDate.unixNano).toNat ∧
        (endDate.unixNano - startDate.unixNano).toNat < 9223372036854775808 := by
      simp only [Hour, Second, maxDuration] at hl h
      omega
    have hc := ceilFloatQuot_cover _ hd.1 hd.2
    generalize ceilFloatQuot (endDate.unixNano - startDate.unixNano).toNat 7776000000000000 = n
      at hc
    simp only [Hour, Second, maxDuration] at hl h ⊢
    have hn : 1 ≤ n := by omega
    have hcast : ((n - 1 : Nat) : Int) = (n : Int) - 1 := by omega
    rw [hcast]
    omega

theorem Split_length_days (startDate endDate : Time) (card : Bytes) (k : Nat) (h1 : 0 < k)
    (h2 : k ≤ 106751) (he : endDate.unixNano = startDate.unixNano + k * (24 * Hour)) :
    (SplitStatementsDateRange startDate endDate card).length = (k + 89) / 90 := by
  unfold SplitStatementsDateRange
  rw [splitLoop_length]
  by_cases hk : k ≤ 90
  · rw [splitCount_short]
    · omega
    · simp only [Hour, Second] at he ⊢
      omega
  · have hd : (endDate.unixNano - startDate.unixNano).toNat = k * 86400000000000 := by
      simp only [Hour, Second] at he
      omega
    rw [splitCount_long, hd, ceilFloatQuot_days k (by omega) h2]
    · simp only [Hour, Second] at he ⊢
      omega
    · simp only [Hour, Second, maxDuration] at he ⊢
      omega

/-! ## Claims C11 to C15 -/

/-- C11: a range that needs no splitting comes back unchanged: when the end is at
most 90 days after the start (equal to it or before it included), the result is
the one option with the given start, end and card. -/
theorem C11_short_range_unchanged (startDate endDate : Time) (card : Bytes)
    (h : endDate.unixNano - startDate.unixNano ≤ 90 * 24 * Hour) :
    SplitStatementsDateRange startDate endDate card =
      [{ StartDate := startDate, EndDate := endDate, CardNumber := card,
         commonOpts := ⟨[], 0, 0⟩ }] :=
  Split_short startDate endDate card h

/-- C11 at the reversed range of the repository's test, 2001-01-01 to
2000-01-01. -/
theorem C11_short_range_unchanged_witness :
    SplitStatementsDateRange ⟨978307200000000000⟩ ⟨946684800000000000⟩
        (ascii "1111111111111114") =
      [{ StartDate := ⟨978307200000000000⟩, EndDate := ⟨946684800000000000⟩,
         CardNumber := ascii "1111111111111114", commonOpts := ⟨[], 0, 0⟩ }] :=
  C11_short_range_unchanged _ _ _ (by decide)

/-- C12 at 2000-01-01 to 2000-06-30, a range of 181 whole days with a valid card:
the code makes three options and `Validate` refuses the third, which starts on
2000-07-01 and ends on 2000-06-30. -/
theorem C12_split_181_days_invalid_window :
    CheckCardNumber (ascii "1111111111111112") = none ∧
    SplitStatementsDateRange ⟨946684800000000000⟩ ⟨962323200000000000⟩
        (ascii "1111111111111112") =
      [{ StartDate := ⟨946684800000000000⟩, EndDate := ⟨954460800000000000⟩,
         CardNumber := ascii "1111111111111112", commonOpts := ⟨[], 0, 0⟩ },
       { StartDate := ⟨954547200000000000⟩, EndDate := ⟨962323200000000000⟩,
         CardNumber := ascii "1111111111111112", commonOpts := ⟨[], 0, 0⟩ },
       { StartDate := ⟨962409600000000000⟩, EndDate := ⟨962323200000000000⟩,
         CardNumber := ascii "1111111111111112", commonOpts := ⟨[], 0, 0⟩ }] ∧
    (SplitStatementsDateRange ⟨946684800000000000⟩ ⟨962323200000000000⟩
        (ascii "1111111111111112")).map StatementsOpts.Validate =
      [none, none, some "date range should be with start date <= end date"] := by
  decide

/-- C13 at 2000-01-01 to 2000-09-28, a range of 271 whole days: the code makes four
options; the third ends on 2000-09-28 and the fourth starts on 2000-09-30, two
days later. -/
theorem C13_split_271_days_gap :
    (SplitStatementsDateRange ⟨946684800000000000⟩ ⟨970099200000000000⟩
        (ascii "1111111111111113")).map (fun w => (w.StartDate.unixNano, w.EndDate.unixNano)) =
      [(946684800000000000, 954460800000000000), (954547200000000000, 962323200000000000),
       (962409600000000000, 970099200000000000), (970272000000000000, 970099200000000000)] ∧
    (970272000000000000 : Int) ≠ 970099200000000000 + 24 * Hour := by
  decide

/-- C14 fails as stated: for a range of 180 days and one nanosecond the code makes
two options, while the ceiling of the span over 90 days is 3; `float64` rounds the
span to 180 days. -/
theorem C14_counterexample :
    (SplitStatementsDateRange ⟨0⟩ ⟨15552000000000001⟩ (ascii "1111111111111112")).length = 2 ∧
    ((15552000000000001 : Int) + (90 * 24 * Hour - 1)) / (90 * 24 * Hour) = 3 := by
  decide

/-- C14, as the code has it: when the end is a whole number `k` of days after the
start, `k` at most 106751 (so that the span fits a `time.Duration`), the number of
options is the ceiling of `k/90`; and it is 1 when the end is not after the
start. -/
theorem C14_window_count (startDate endDate : Time) (card : Bytes) :
    (∀ k : Nat, 0 < k → k ≤ 106751 →
      endDate.unixNano = startDate.unixNano + k * (24 * Hour) →
      (SplitStatementsDateRange startDate endDate card).length = (k + 89) / 90) ∧
    (endDate.unixNano ≤ startDate.unixNano →
      (SplitStatementsDateRange startDate endDate card).length = 1) := by
  constructor
  · intro k h1 h2 he
    exact Split_length_days startDate endDate card k h1 h2 he
  · intro h
    rw [Split_short startDate endDate card (by simp only [Hour, Second]; omega)]
    rfl

/-- C14 at the 244 days of the repository's test (three options) and at its
reversed range (one option). -/
theorem C14_window_count_witness :
    (SplitStatementsDateRange ⟨946684800000000000⟩ ⟨967766400000000000⟩
        (ascii "1111111111111113")).length = (244 + 89) / 90 ∧
    (SplitStatementsDateRange ⟨978307200000000000⟩ ⟨946684800000000000⟩
        (ascii "1111111111111114")).length = 1 :=
  ⟨(C14_window_count ⟨946684800000000000⟩ ⟨967766400000000000⟩ (ascii "1111111111111113")).1
      244 (by decide) (by decide) (by decide),
   (C14_window_count ⟨978307200000000000⟩ ⟨946684800000000000⟩ (ascii "1111111111111114")).2
      (by decide)⟩

/-- C15 fails as stated: from 1700-01-01 to 2000-01-01 the span does not fit a
`time.Duration`, `Sub` gives the largest duration, the code makes 1187 options and
the last one ends on 1995-09-28 (108016 days after the start), not at the
end date. -/
theorem C15_counterexample :
    (SplitStatementsDateRange ⟨-8520336000000000000⟩ ⟨946684800000000000⟩
        (ascii "1111111111111112")).getLast?.map StatementsOpts.EndDate =
      some ⟨-8520336000000000000 + 108016 * (24 * Hour)⟩ ∧
    (⟨-8520336000000000000 + 108016 * (24 * Hour)⟩ : Time) ≠ ⟨946684800000000000⟩ := by
  constructor
  · rw [Split_getLast]
    have hn : splitCount ⟨-8520336000000000000⟩ ⟨946684800000000000⟩ = 1187 := by decide
    rw [hn]
    decide
  · decide

/-- C15, as the code has it: every option spans at most 90 days, the first one
starts at the start date, and, when the span from start to end fits a
`time.Duration` (about 292 years), the last one ends exactly at the end date. -/
theorem C15_windows_bounded_and_clipped (startDate endDate : Time) (card : Bytes) :
    (∀ w ∈ SplitStatementsDateRange startDate endDate card,
      w.EndDate.Sub w.StartDate ≤ 90 * 24 * Hour) ∧
    (SplitStatementsDateRange startDate endDate card).head?.map StatementsOpts.StartDate =
      some startDate ∧
    (endDate.unixNano - startDate.unixNano ≤ maxDuration →
      (SplitStatementsDateRange startDate endDate card).getLast?.map StatementsOpts.EndDate =
        some endDate) := by
  refine ⟨Split_windows_bounded startDate endDate card, ?_, Split_last_end startDate endDate card⟩
  rw [Split_head]
  simp only [Option.map_some', windowAt, Option.some.injEq]
  rw [Time_eq_iff]
  simp

/-- C15 at the 244 days of the repository's test: the last option ends on
2000-09-01. -/
theorem C15_windows_bounded_and_clipped_witness :
    (SplitStatementsDateRange ⟨946684800000000000⟩ ⟨967766400000000000⟩
        (ascii "1111111111111113")).getLast?.map StatementsOpts.EndDate =
      some ⟨967766400000000000⟩ :=
  (C15_windows_bounded_and_clipped ⟨946684800000000000⟩ ⟨967766400000000000⟩
    (ascii "1111111111111113")).2.2 (by decide)

/-! ## Lemmas: merging statements -/

theorem wrapInt64_wrap_add (a b : Int) : wrapInt64 (wrapInt64 a + b) = wrapInt64 (a + b) := by
  unfold wrapInt64
  omega

theorem wrapInt64_idem (a : Int) : wrapInt64 (wrapInt64 a) = wrapInt64 a := by
  unfold wrapInt64
  omega

theorem wrapInt64_of_range (a : Int) (h : minInt64 ≤ a ∧ a ≤ maxInt64) : wrapInt64 a = a := by
  unfold wrapInt64
  unfold minInt64 maxInt64 at h
  omega

theorem foldl_mergeStep_Statements (l : List Statements) (acc : Statements) :
    (l.foldl mergeStep acc).Statements = acc.Statements ++ (l.map (·.Statements)).flatten := by
  induction l generalizing acc with
  | nil => simp
  | cons s l ih =>
    rw [List.foldl_cons, ih]
    simp [mergeStep]

theorem foldl_mergeStep_Debet (l : List Statements) (acc : Statements)
    (h : wrapInt64 acc.Debet = acc.Debet) :
    (l.foldl mergeStep acc).Debet = wrapInt64 (acc.Debet + (l.map (·.Debet)).sum) := by
  induction l generalizing acc with
  | nil => simp [h]
  | cons s l ih =>
    rw [List.foldl_cons, ih _ (by simp only [mergeStep, wrapInt64_idem])]
    simp only [mergeStep, wrapInt64_wrap_add, List.map_cons, List.sum_cons, Int.add_assoc]

theorem foldl_mergeStep_Credit (l : List Statements) (acc : Statements)
    (h : wrapInt64 acc.Credit = acc.Credit) :
    (l.foldl mergeStep acc).Credit = wrapInt64 (acc.Credit + (l.map (·.Credit)).sum) := by
  induction l generalizing acc with
  | nil => simp [h]
  | cons s l ih =>
    rw [List.foldl_cons, ih _ (by simp only [mergeStep, wrapInt64_idem])]
    simp only [mergeStep, wrapInt64_wrap_add, List.map_cons, List.sum_cons, Int.add_assoc]

theorem foldl_mergeStep_Status (l : List Statements) (acc : Statements) :
    (l.foldl mergeStep acc).Status = (l.getLast?.map (·.Status)).getD acc.Status := by
  induction l generalizing acc with
  | nil => rfl
  | cons s l ih =>
    rw [List.foldl_cons, ih]
    cases l with
    | nil => rfl
    | cons t l =>
      rw [List.getLast?_cons_cons]
      cases h : (t :: l).getLast? with
      | none => simp at h
      | some x => rfl

theorem mergeStatements_pair (res s : Statements) (hd : wrapInt64 res.Debet = res.Debet)
    (hc : wrapInt64 res.Credit = res.Credit) :
    mergeStatements [res, s] = mergeStep res s := by
  simp only [mergeStatements, List.foldl_cons, List.foldl_nil, mergeStep, zeroStatements,
    Int.zero_add, hd, hc, List.nil_append]

theorem mergeCompleted_eq_aux (l : List Statements) (acc : Statements)
    (hd : wrapInt64 acc.Debet = acc.Debet) (hc : wrapInt64 acc.Credit = acc.Credit) :
    l.foldl (fun res statements => mergeStatements [res, statements]) acc =
      l.foldl mergeStep acc := by
  induction l generalizing acc with
  | nil => rfl
  | cons s l ih =>
    rw [List.foldl_cons, List.foldl_cons, mergeStatements_pair acc s hd hc]
    exact ih _ (by simp only [mergeStep, wrapInt64_idem]) (by simp only [mergeStep, wrapInt64_idem])

theorem mergeCompleted_eq (l : List Statements) : mergeCompleted l = mergeStatements l :=
  mergeCompleted_eq_aux l zeroStatements (by decide) (by decide)

theorem mergeStatements_spec (l : List Statements) :
    (mergeStatements l).Statements = (l.map (·.Statements)).flatten ∧
    (mergeStatements l).Debet = wrapInt64 (l.map (·.Debet)).sum ∧
    (mergeStatements l).Credit = wrapInt64 (l.map (·.Credit)).sum ∧
    (mergeStatements l).Status = (l.getLast?.map (·.Status)).getD [] := by
  refine ⟨?_, ?_, ?_, ?_⟩
  · simpa [zeroStatements] using foldl_mergeStep_Statements l zeroStatements
  · simpa [zeroStatements] using foldl_mergeStep_Debet l zeroStatements (by decide)
  · simpa [zeroStatements] using foldl_mergeStep_Credit l zeroStatements (by decide)
  · simpa [zeroStatements] using foldl_mergeStep_Status l zeroStatements

/-! ## Lemmas: what DoContext returns -/

theorem DoContext_shape {Req Resp : Type} (c : Client Req Resp) (url method : String)
    (req : Req) (resp : Resp) (marshalled body : Bytes) (status : Int)
    (hm : c.xml.Marshal req = .ok marshalled) (hn : c.newRequestErr method url = none)
    (hd : c.http (sentRequest url method marshalled) = .ok ⟨status, .ok body⟩) :
    c.DoContext url method req resp = .panic ∨
    (∃ r, c.DoContext url method req resp = .ret (none, r)) ∨
    ∃ msg r, c.DoContext url method req resp =
      .ret (some (.p24 { Err := msg, URL := url, Method := method,
                         Req := some (xmlHeader ++ marshalled), Resp := some body }), r) := by
  have hd1 := hd
  simp only [sentRequest] at hd1
  simp only [Client.DoContext, hm, hn, hd1, newError]
  split_ifs
  · exact Or.inr (Or.inr ⟨_, _, rfl⟩)
  · split
    · exact Or.inr (Or.inr ⟨_, _, rfl⟩)
    · split
      · exact Or.inl rfl
      · exact Or.inr (Or.inr ⟨_, _, rfl⟩)
      · split
        · exact Or.inl rfl
        · exact Or.inr (Or.inr ⟨_, _, rfl⟩)
        · split
          · exact Or.inr (Or.inr ⟨_, _, rfl⟩)
          · exact Or.inr (Or.inl ⟨_, rfl⟩)

theorem DoContext_http_congr {Req Resp : Type} (c : Client Req Resp)
    (http1 : HTTPRequest → Except String HTTPResponse) (url method : String) (req : Req)
    (resp : Resp) (h : ∀ r ∈ c.handed url method req, http1 r = c.http r) :
    Client.DoContext { c with http := http1 } url method req resp =
      c.DoContext url method req resp := by
  unfold Client.handed at h
  unfold Client.DoContext
  simp only
  cases hm : c.xml.Marshal req with
  | error e => rfl
  | ok marshalled =>
    simp only [hm] at h ⊢
    cases hn : c.newRequestErr method url with
    | some e => rfl
    | none =>
      simp only [hn, List.mem_singleton, forall_eq, sentRequest] at h ⊢
      rw [h]

/-! ## Claims C16 to C20 -/

/-- C16: `mergeStatements` over any sequence returns the inputs' lists
concatenated in input order, the sums of their `Debet` and of their `Credit` as
int64 values (the exact sums whenever these fit an int64), and the `Status` of the
last input, the empty string for no input; merging `{A,1,2,[x]}` and `{B,3,4,[y]}`
gives `{B, debit 4, credit 6, [x,y]}`. -/
theorem C16_merge_statements :
    (∀ l : List Statements,
      (mergeStatements l).Statements = (l.map (·.Statements)).flatten ∧
      (mergeStatements l).Debet = wrapInt64 (l.map (·.Debet)).sum ∧
      (mergeStatements l).Credit = wrapInt64 (l.map (·.Credit)).sum ∧
      (mergeStatements l).Status = (l.getLast?.map (·.Status)).getD [] ∧
      (minInt64 ≤ (l.map (·.Debet)).sum ∧ (l.map (·.Debet)).sum ≤ maxInt64 →
        (mergeStatements l).Debet = (l.map (·.Debet)).sum) ∧
      (minInt64 ≤ (l.map (·.Credit)).sum ∧ (l.map (·.Credit)).sum ≤ maxInt64 →
        (mergeStatements l).Credit = (l.map (·.Credit)).sum)) ∧
    mergeStatements [demoResultA, demoResultB] =
      { Status := ascii "B", Statements := [demoStatementX, demoStatementY], Credit := 6,
        Debet := 4 } := by
  refine ⟨?_, by decide⟩
  intro l
  obtain ⟨h1, h2, h3, h4⟩ := mergeStatements_spec l
  refine ⟨h1, h2, h3, h4, ?_, ?_⟩
  · intro h
    rw [h2, wrapInt64_of_range _ h]
  · intro h
    rw [h3, wrapInt64_of_range _ h]

/-- C16 at the two results of the example: the debit is the exact sum 4. -/
theorem C16_merge_statements_witness :
    (mergeStatements [demoResultA, demoResultB]).Debet =
      ([demoResultA, demoResultB].map (·.Debet)).sum :=
  (C16_merge_statements.1 [demoResultA, demoResultB]).2.2.2.2.1 (by decide)

/-- C17 fails as stated: when the worker of the second sub-range completes first,
the accumulator is `{A, [y, x]}`, not the merge `{B, [x, y]}` in planning
order. -/
theorem C17_counterexample :
    mergeCompleted [demoResultB, demoResultA] =
      { Status := ascii "A", Statements := [demoStatementY, demoStatementX], Credit := 6,
        Debet := 4 } ∧
    mergeCompleted [demoResultB, demoResultA] ≠ mergeStatements [demoResultA, demoResultB] := by
  decide

/-- C17, as the code has it: the accumulator follows the order of completion. For
results `r` in planning order and any order `p` of completion, a permutation of
`r`, folding `res = mergeStatements(res, p[k])` gives `mergeStatements` of `p`:
the entries concatenated in completion order, a permutation of the
planning-order concatenation, and the `Debet` and `Credit` of the planning-order
merge. -/
theorem C17_merge_follows_completion_order (r p : List Statements) (h : p.Perm r) :
    mergeCompleted p = mergeStatements p ∧
    (mergeCompleted p).Debet = (mergeStatements r).Debet ∧
    (mergeCompleted p).Credit = (mergeStatements r).Credit ∧
    (mergeCompleted p).Statements.Perm (mergeStatements r).Statements := by
  rw [mergeCompleted_eq]
  obtain ⟨p1, p2, p3, -⟩ := mergeStatements_spec p
  obtain ⟨r1, r2, r3, -⟩ := mergeStatements_spec r
  refine ⟨rfl, ?_, ?_, ?_⟩
  · rw [p2, r2, (h.map (·.Debet)).sum_eq]
  · rw [p3, r3, (h.map (·.Credit)).sum_eq]
  · rw [p1, r1]
    exact (h.map (·.Statements)).flatten

/-- C17 at the two results of the example, completed in the reverse order. -/
theorem C17_merge_follows_completion_order_witness :
    mergeCompleted [demoResultB, demoResultA] = mergeStatements [demoResultB, demoResultA] ∧
    (mergeCompleted [demoResultB, demoResultA]).Debet =
      (mergeStatements [demoResultA, demoResultB]).Debet ∧
    (mergeCompleted [demoResultB, demoResultA]).Credit =
      (mergeStatements [demoResultA, demoResultB]).Credit ∧
    (mergeCompleted [demoResultB, demoResultA]).Statements.Perm
      (mergeStatements [demoResultA, demoResultB]).Statements :=
  C17_merge_follows_completion_order [demoResultA, demoResultB] [demoResultB, demoResultA]
    (List.Perm.swap _ _ _)

/-- C18: `DoContext` applies its checks in a fixed order. Once the response is
read, a status of 300 or more gives the error "unexpected http status code"
whatever the body is; below 300, a body in which `CheckErr` finds an in-band error
gives that remote error, whatever the structure check and the signature check
would say; and `CheckErr` returns the first match of its three shapes, in the
order top-level error, data error, info text. -/
theorem C18_checks_in_fixed_order {Req Resp : Type} (c : Client Req Resp) (url method : String)
    (req : Req) (resp : Resp) (marshalled body : Bytes) (status : Int)
    (hm : c.xml.Marshal req = .ok marshalled) (hn : c.newRequestErr method url = none)
    (hd : c.http (sentRequest url method marshalled) = .ok ⟨status, .ok body⟩) :
    (status ≥ 300 →
      c.DoContext url method req resp =
        .ret (some (.p24 { Err := "unexpected http status code " ++ toString status,
                           URL := url, Method := method,
                           Req := some (xmlHeader ++ marshalled), Resp := some body }), resp)) ∧
    (status < 300 → ∀ msg, xmlResp.CheckErr c.xml body = some msg →
      c.DoContext url method req resp =
        .ret (some (.p24 { Err := Wrap msg "xml response with error", URL := url,
                           Method := method, Req := some (xmlHeader ++ marshalled),
                           Resp := some body }), resp)) ∧
    (∀ msg, c.xml.respErr body = .ok msg → xmlResp.CheckErr c.xml body = some msg) ∧
    (∀ e msg, c.xml.respErr body = .error e → c.xml.respDataErr body = .ok msg →
      xmlResp.CheckErr c.xml body = some msg) ∧
    (∀ e1 e2 msg, c.xml.respErr body = .error e1 → c.xml.respDataErr body = .error e2 →
      c.xml.respDataInfoErr body = .ok msg → xmlResp.CheckErr c.xml body = some msg) ∧
    (∀ e1 e2 e3, c.xml.respErr body = .error e1 → c.xml.respDataErr body = .error e2 →
      c.xml.respDataInfoErr body = .error e3 → xmlResp.CheckErr c.xml body = none) := by
  have hd1 := hd
  simp only [sentRequest] at hd1
  refine ⟨?_, ?_, ?_, ?_, ?_, ?_⟩
  · intro hs
    simp only [Client.DoContext, hm, hn, hd1, hs, if_true, newError]
  · intro hs msg he
    have hs1 : ¬ status ≥ 300 := by omega
    simp only [Client.DoContext, hm, hn, hd1, hs1, if_false, he, newError]
  · intro msg h1
    simp only [xmlResp.CheckErr, h1]
  · intro e msg h1 h2
    simp only [xmlResp.CheckErr, h1, h2]
  · intro e1 e2 msg h1 h2 h3
    simp only [xmlResp.CheckErr, h1, h2, h3]
  · intro e1 e2 e3 h1 h2 h3
    simp only [xmlResp.CheckErr, h1, h2, h3]

/-- C18 at a client whose server answers 200 with a top-level error that is also
a data error: the caller gets the top-level message, and no signature is
looked at. -/
theorem C18_checks_in_fixed_order_witness :
    Client.DoContext
        { demoClient ⟨[], []⟩ with
          xml := { demoXML ⟨[], []⟩ with respErr := fun _ => .ok "For input string",
                                         respDataErr := fun _ => .ok "invalid signature" } }
        "https://api" "POST" () () =
      .ret (some (.p24 { Err := "xml response with error: For input string",
                         URL := "https://api", Method := "POST",
                         Req := some (xmlHeader ++ ascii "<request></request>"),
                         Resp := some demoBody }), ()) :=
  (C18_checks_in_fixed_order
    { demoClient ⟨[], []⟩ with
      xml := { demoXML ⟨[], []⟩ with respErr := fun _ => .ok "For input string",
                                     respDataErr := fun _ => .ok "invalid signature" } }
    "https://api" "POST" () () (ascii "<request></request>") demoBody 200 rfl rfl rfl).2.1
    (by decide) "For input string" rfl

/-- C19: validation comes before any network call. With a card number that
`CheckCardNumber` refuses, `GetCardBalance` returns the error and the zero
`CardBalance` and hands no request to the `Doer`; with options that `Validate`
refuses, `GetStatements` returns the error and the zero `Statements` and hands no
request to the `Doer`. -/
theorem C19_validation_before_network (marshalData : RequestData → Except String Bytes)
    (format : Time → Bytes) :
    (∀ (c : Client Request CardBalance) (opts : BalanceOpts) (err : String),
      CheckCardNumber opts.CardNumber = some err →
      (c.GetCardBalance marshalData opts).result =
        .ret (zeroCardBalance, some (.plain (Wrap err "invalid card number"))) ∧
      (c.GetCardBalance marshalData opts).sent = []) ∧
    (∀ (c : Client Request Statements) (opts : StatementsOpts) (err : String),
      opts.Validate = some err →
      (c.GetStatements marshalData format opts).result =
        .ret (zeroStatements, some (.plain (Wrap err "invalid request options"))) ∧
      (c.GetStatements marshalData format opts).sent = []) := by
  constructor
  · intro c opts err h
    simp only [Client.GetCardBalance, h, and_self]
  · intro c opts err h
    simp only [Client.GetStatements, h, and_self]

/-- C19 at a card number of fifteen digits and at the inverted window of
2000-07-01 to 2000-06-30. -/
theorem C19_validation_before_network_witness :
    ((demoAPIClient CardBalance).GetCardBalance (fun _ => .ok (ascii "<data>x</data>"))
        ⟨ascii "123456789012345", ascii "UA", ⟨[], 0, 0⟩⟩).sent = [] ∧
    ((demoAPIClient Statements).GetStatements (fun _ => .ok (ascii "<data>x</data>"))
        (fun _ => ascii "01.01.2000")
        { StartDate := ⟨962409600000000000⟩, EndDate := ⟨962323200000000000⟩,
          CardNumber := ascii "1111111111111112", commonOpts := ⟨[], 0, 0⟩ }).sent = [] :=
  ⟨((C19_validation_before_network (fun _ => .ok (ascii "<data>x</data>"))
      (fun _ => ascii "01.01.2000")).1 (demoAPIClient CardBalance)
      ⟨ascii "123456789012345", ascii "UA", ⟨[], 0, 0⟩⟩ "should be sixteen length"
      (by decide)).2,
   ((C19_validation_before_network (fun _ => .ok (ascii "<data>x</data>"))
      (fun _ => ascii "01.01.2000")).2 (demoAPIClient Statements)
      { StartDate := ⟨962409600000000000⟩, EndDate := ⟨962323200000000000⟩,
        CardNumber := ascii "1111111111111112", commonOpts := ⟨[], 0, 0⟩ }
      "date range should be with start date <= end date" (by decide)).2⟩

/-- C20: every error `DoContext` returns after it handed the request to the `Doer`
is an `*Error` with the call's data: `URL` and `Method` are the arguments, `Req` is
the serialized request body (the XML header and the marshalled request), and
`Resp` is the response body when that body was read and nil when sending or
reading failed. -/
theorem C20_error_annotated {Req Resp : Type} (c : Client Req Resp) (url method : String)
    (req : Req) (resp resp1 : Resp) (marshalled : Bytes) (err : GoError)
    (hm : c.xml.Marshal req = .ok marshalled) (hn : c.newRequestErr method url = none)
    (h : c.DoContext url method req resp = .ret (some err, resp1)) :
    ∃ e : Error, err = .p24 e ∧ e.URL = url ∧ e.Method = method ∧
      e.Req = some (xmlHeader ++ marshalled) ∧
      e.Resp =
        (match c.http (sentRequest url method marshalled) with
         | .ok ⟨_, .ok body⟩ => some body
         | _ => none) := by
  cases hd : c.http (sentRequest url method marshalled) with
  | error e0 =>
    have hd1 := hd
    simp only [sentRequest] at hd1
    simp only [Client.DoContext, hm, hn, hd1, newError, Outcome.ret.injEq, Prod.mk.injEq,
      Option.some.injEq] at h
    exact ⟨_, h.1.symm, rfl, rfl, rfl, rfl⟩
  | ok httpResp =>
    obtain ⟨status, rbody⟩ := httpResp
    cases rbody with
    | error e0 =>
      have hd1 := hd
      simp only [sentRequest] at hd1
      simp only [Client.DoContext, hm, hn, hd1, newError, Outcome.ret.injEq, Prod.mk.injEq,
        Option.some.injEq] at h
      exact ⟨_, h.1.symm, rfl, rfl, rfl, rfl⟩
    | ok body =>
      rcases DoContext_shape c url method req resp marshalled body status hm hn hd with
        hp | ⟨r, hr⟩ | ⟨msg, r, hr⟩
      · rw [hp] at h
        simp at h
      · rw [hr] at h
        simp at h
      · rw [hr] at h
        simp only [Outcome.ret.injEq, Prod.mk.injEq, Option.some.injEq] at h
        exact ⟨_, h.1.symm, rfl, rfl, rfl, rfl⟩

/-- C20 at the demo client with a wrong declared signature: the error carries the
request body in `Req` and the response body in `Resp`. -/
theorem C20_error_annotated_witness :
    ∃ e : Error,
      GoError.p24 { Err := "xml response with invalid signature", URL := "https://api",
                    Method := "POST", Req := some (xmlHeader ++ ascii "<request></request>"),
                    Resp := some demoBody } = .p24 e ∧
      e.URL = "https://api" ∧ e.Method = "POST" ∧
      e.Req = some (xmlHeader ++ ascii "<request></request>") ∧
      e.Resp =
        (match (demoClient ⟨ascii "75482", ascii "00"⟩).http
            (sentRequest "https://api" "POST" (ascii "<request></request>")) with
         | .ok ⟨_, .ok body⟩ => some body
         | _ => none) :=
  C20_error_annotated (demoClient ⟨ascii "75482", ascii "00"⟩) "https://api" "POST" () () ()
    (ascii "<request></request>") _ rfl rfl (by decide)

/-! ## Lemmas: the data fragment -/

theorem Index_of_prefix (sep s : Bytes) : Index (sep ++ s) sep = 0 := by
  have hp : sep.isPrefixOf (sep ++ s) = true := by
    rw [List.isPrefixOf_iff_prefix]
    exact List.prefix_append sep s
  unfold Index
  cases h : sep ++ s with
  | nil =>
    rw [h] at hp
    simp only [indexFrom, hp, if_true]
    rfl
  | cons c cs =>
    rw [h] at hp
    simp only [indexFrom, hp, if_true]
    rfl

theorem isPrefixOf_short (sep s : Bytes) (h : s.length < sep.length) :
    sep.isPrefixOf s = false := by
  cases hb : sep.isPrefixOf s with
  | false => rfl
  | true =>
    rw [List.isPrefixOf_iff_prefix] at hb
    have := hb.length_le
    omega

theorem lastIndexFrom_short (sep s : Bytes) (i : Nat) (h : s.length < sep.length) :
    lastIndexFrom sep s i = -1 := by
  induction s generalizing i with
  | nil => simp only [lastIndexFrom, isPrefixOf_short sep [] h, Bool.false_eq_true, if_false]
  | cons c cs ih =>
    have hcs : cs.length < sep.length := by
      simp only [List.length_cons] at h
      omega
    simp only [lastIndexFrom, ih (i + 1) hcs, ne_eq, not_true_eq_false, if_false,
      isPrefixOf_short sep (c :: cs) h, Bool.false_eq_true]

theorem lastIndexFrom_suffix (sep xs : Bytes) (i : Nat) (hsep : sep ≠ []) :
    lastIndexFrom sep (xs ++ sep) i = ((i + xs.length : Nat) : Int) := by
  induction xs generalizing i with
  | nil =>
    cases sep with
    | nil => exact absurd rfl hsep
    | cons c cs =>
      have hp : (c :: cs).isPrefixOf (c :: cs) = true := by
        rw [List.isPrefixOf_iff_prefix]
      have hs := lastIndexFrom_short (c :: cs) cs (i + 1) (by simp)
      simp only [List.nil_append, lastIndexFrom, hs, ne_eq, not_true_eq_false, if_false, hp,
        if_true, List.length_nil, Nat.add_zero]
  | cons x xs ih =>
    have hne : ¬ (((i + 1 + xs.length : Nat) : Int) = -1) := by omega
    show lastIndexFrom sep (x :: (xs ++ sep)) i = _
    rw [lastIndexFrom]
    simp only [ih (i + 1), ne_eq, hne, not_false_eq_true, if_true, List.length_cons]
    congr 1
    omega

theorem LastIndex_of_suffix (sep xs : Bytes) (hsep : sep ≠ []) :
    LastIndex (xs ++ sep) sep = xs.length := by
  rw [LastIndex, lastIndexFrom_suffix sep xs 0 hsep]
  simp

theorem ascii_data_open : ascii "<data>" = [60, 100, 97, 116, 97, 62] := rfl

theorem ascii_data_close : ascii "</data>" = [60, 47, 100, 97, 116, 97, 62] := rfl

theorem dataTagContent_wrapped (inner : Bytes) :
    dataTagContent (ascii "<data>" ++ inner ++ ascii "</data>") = .ret (.ok inner) := by
  have h1 : Index (ascii "<data>" ++ inner ++ ascii "</data>") (ascii "<data>") = 0 := by
    rw [List.append_assoc]
    exact Index_of_prefix _ _
  have h2 : LastIndex (ascii "<data>" ++ inner ++ ascii "</data>") (ascii "</data>") =
      ((ascii "<data>" ++ inner).length : Nat) :=
    LastIndex_of_suffix _ _ (by decide)
  have hl : (ascii "<data>").length = 6 := rfl
  unfold dataTagContent
  simp only [h1, h2, hl, List.length_append]
  have e1 : ¬ ((0 : Int) = -1 ∨ (((6 + inner.length : Nat) : Int) = -1)) := by omega
  have e2 : ¬ ((((6 + inner.length : Nat) : Int)) - (0 + ((6 : Nat) : Int)) < 0) := by omega
  have e3 : ((0 : Int) + ((6 : Nat) : Int)).toNat = 6 := by decide
  have e4 : ((((6 + inner.length : Nat) : Int)) - (0 + ((6 : Nat) : Int))).toNat = inner.length := by
    omega
  simp only [e1, e2, e3, e4, if_false]
  have e5 : List.drop 6 (ascii "<data>" ++ inner ++ ascii "</data>") = inner ++ ascii "</data>" := by
    rw [List.append_assoc]
    exact List.drop_left' hl
  rw [e5, List.take_left']
  rfl

/-! ## Claims C21, C22, C28, C29 -/

/-- C21: `NewRequest` applies the default common options only when they are unset.
For a marshaller that writes the request data as a `data` element with some
content, the request returned for the merchant `m` and the data `d` has the
version `1.0`, the signature of `m` (so the id of `m`) over that content, the
payment of `d`, and the common options `cmt, 0, 0` when those of `d` are all zero
and those of `d` otherwise; the error is nil. -/
theorem C21_new_request_defaults (h : Digests) (marshalData : RequestData → Except String Bytes)
    (m : Merchant) (d : RequestData) (inner : Bytes) (hi : inner ≠ [])
    (hm : marshalData
        (if d.commonOpts = ⟨[], 0, 0⟩ then { d with commonOpts := DefaultCommonOpts } else d) =
      .ok (ascii "<data>" ++ inner ++ ascii "</data>")) :
    ∃ req : Request,
      NewRequest h marshalData m d = .ret (req, none) ∧
      req.Version = ascii "1.0" ∧
      req.MerchantSign.ID = m.ID ∧
      req.MerchantSign = m.Sign h inner ∧
      req.Data.Payment = d.Payment ∧
      req.Data.commonOpts =
        (if d.commonOpts = ⟨[], 0, 0⟩ then ⟨ascii "cmt", 0, 0⟩ else d.commonOpts) := by
  have hl : ¬ inner.length = 0 := fun e => hi (List.length_eq_zero.mp e)
  refine ⟨{ Version := ascii "1.0", MerchantSign := m.Sign h inner,
            Data := if d.commonOpts = ⟨[], 0, 0⟩ then { d with commonOpts := DefaultCommonOpts }
              else d }, ?_, rfl, rfl, rfl, ?_, ?_⟩
  · simp only [NewRequest, hm, dataTagContent_wrapped, hl, if_false]
  · simp only
    split <;> rfl
  · simp only
    split <;> rfl

/-- C21 at unset options and at the options `get, 1, 0`, with a marshaller that
writes `<data>x</data>`. -/
theorem C21_new_request_defaults_witness :
    (∃ req : Request,
      NewRequest demoDigests (fun _ => .ok (ascii "<data>x</data>"))
        ⟨ascii "75482", ascii "secret"⟩ ⟨⟨[], []⟩, ⟨[], 0, 0⟩⟩ = .ret (req, none) ∧
      req.Version = ascii "1.0" ∧ req.MerchantSign.ID = ascii "75482" ∧
      req.Data.commonOpts = ⟨ascii "cmt", 0, 0⟩) ∧
    (∃ req : Request,
      NewRequest demoDigests (fun _ => .ok (ascii "<data>x</data>"))
        ⟨ascii "75482", ascii "secret"⟩ ⟨⟨[], []⟩, ⟨ascii "get", 1, 0⟩⟩ = .ret (req, none) ∧
      req.Version = ascii "1.0" ∧ req.MerchantSign.ID = ascii "75482" ∧
      req.Data.commonOpts = ⟨ascii "get", 1, 0⟩) := by
  constructor
  · obtain ⟨req, h1, h2, h3, -, -, h6⟩ :=
      C21_new_request_defaults demoDigests (fun _ => .ok (ascii "<data>x</data>"))
        ⟨ascii "75482", ascii "secret"⟩ ⟨⟨[], []⟩, ⟨[], 0, 0⟩⟩ (ascii "x") (by decide) rfl
    exact ⟨req, h1, h2, h3, h6⟩
  · obtain ⟨req, h1, h2, h3, -, -, h6⟩ :=
      C21_new_request_defaults demoDigests (fun _ => .ok (ascii "<data>x</data>"))
        ⟨ascii "75482", ascii "secret"⟩ ⟨⟨[], []⟩, ⟨ascii "get", 1, 0⟩⟩ (ascii "x") (by decide)
        rfl
    exact ⟨req, h1, h2, h3, h6⟩

/-- C22 on the code: `NewRateLimiter` builds the limiter of `rate.Every(time.Second)`
and burst 2; its limit is one event per second, not two. -/
theorem C22_rate_limiter_one_per_second :
    NewRateLimiter.limit = .perSecond 1 ∧ NewRateLimiter.burst = 2 ∧
    NewRateLimiter.limit ≠ .perSecond 2 := by
  have h : NewRateLimiter.limit = .perSecond 1 := by
    simp only [NewRateLimiter, NewLimiter, Every, Second]
    norm_num
  refine ⟨h, rfl, ?_⟩
  rw [h]
  intro e
  injection e with e
  norm_num at e

/-- C28 on the code: for `</data><data>`, which contains both markers, the last
`</data>` starts before the first `<data>` and `make([]byte, end-start)` gets the
length -13: `dataTagContent` panics. -/
theorem C28_dataTagContent_panics :
    Index (ascii "</data><data>") (ascii "<data>") = 7 ∧
    LastIndex (ascii "</data><data>") (ascii "</data>") = 0 ∧
    dataTagContent (ascii "</data><data>") = .panic := by
  decide

/-- C29: `VerifySign` binds the merchant id as well as the hash. It returns nil
exactly when the id is the merchant's and the signature is, byte for byte, the
lowercase hex that `Sign` computes; any other pair is refused with "invalid
signature", so the correct hex under another id, and the upper case hex whenever
it has a letter. -/
theorem C29_verify_binds_id_and_hash (h : Digests) (m : Merchant) (data : Bytes)
    (s : MerchantSign) :
    (m.VerifySign h data s = none ↔ s.ID = m.ID ∧ s.Sign = (m.Sign h data).Sign) ∧
    (m.VerifySign h data s ≠ none → m.VerifySign h data s = some "invalid signature") ∧
    (s.ID ≠ m.ID → m.VerifySign h data ⟨s.ID, (m.Sign h data).Sign⟩ = some "invalid signature") ∧
    (upperHex (m.Sign h data).Sign ≠ (m.Sign h data).Sign →
      m.VerifySign h data ⟨m.ID, upperHex (m.Sign h data).Sign⟩ = some "invalid signature") := by
  have hid : (m.Sign h data).ID = m.ID := rfl
  refine ⟨?_, ?_, ?_, ?_⟩
  · rw [VerifySign_eq_none_iff]
    constructor
    · intro e
      rw [e]
      exact ⟨rfl, rfl⟩
    · intro ⟨e1, e2⟩
      cases s
      simp only at e1 e2
      subst e1 e2
      rfl
  · intro hne
    unfold Merchant.VerifySign at hne ⊢
    split
    · rfl
    · rename_i hs
      simp [hs] at hne
  · intro hne
    unfold Merchant.VerifySign
    have : (⟨s.ID, (m.Sign h data).Sign⟩ : MerchantSign) ≠ m.Sign h data := by
      intro e
      have := congrArg MerchantSign.ID e
      exact hne this
    simp only [ne_eq, this, not_false_eq_true, if_true]
  · intro hne
    unfold Merchant.VerifySign
    have : (⟨m.ID, upperHex (m.Sign h data).Sign⟩ : MerchantSign) ≠ m.Sign h data := by
      intro e
      have := congrArg MerchantSign.Sign e
      exact hne this
    simp only [ne_eq, this, not_false_eq_true, if_true]

/-- C29 at the demo merchant: the signature `30` is accepted under the id `75482`
and refused under the id `75483`. -/
theorem C29_verify_binds_id_and_hash_witness :
    Merchant.VerifySign demoDigests ⟨ascii "75482", ascii "secret"⟩ (ascii "x")
        ⟨ascii "75482", ascii "30"⟩ = none ∧
    Merchant.VerifySign demoDigests ⟨ascii "75482", ascii "secret"⟩ (ascii "x")
        ⟨ascii "75483", (Merchant.Sign demoDigests ⟨ascii "75482", ascii "secret"⟩
          (ascii "x")).Sign⟩ = some "invalid signature" :=
  ⟨(C29_verify_binds_id_and_hash demoDigests ⟨ascii "75482", ascii "secret"⟩ (ascii "x")
      ⟨ascii "75482", ascii "30"⟩).1.mpr (by decide),
   (C29_verify_binds_id_and_hash demoDigests ⟨ascii "75482", ascii "secret"⟩ (ascii "x")
      ⟨ascii "75483", ascii "30"⟩).2.2.1 (by decide)⟩

/-! ## Lemmas: splitting a text -/

theorem ascii_space : ascii " " = [32] := rfl

theorem Index_byte (p : Nat) (xs ys : Bytes) (h : p ∉ xs) :
    Index (xs ++ p :: ys) [p] = xs.length := by
  rw [Index, indexFrom_skip p [] xs _ 0 h]
  simp [indexFrom, List.isPrefixOf]

theorem genSplit_absent (p : Nat) (fuel : Nat) (s : Bytes) (h : p ∉ s) :
    genSplit [p] fuel s = [s] := by
  cases fuel with
  | zero => rfl
  | succ n => simp [genSplit, Index_absent p [] s h]

theorem Split_two (p : Nat) (A C : Bytes) (hA : p ∉ A) (hC : p ∉ C) :
    strings.Split (A ++ p :: C) [p] = [A, C] := by
  unfold strings.Split
  have hl : (A ++ p :: C).length = (A.length + C.length) + 1 := by
    simp only [List.length_append, List.length_cons]
    omega
  rw [hl, genSplit]
  have hn : ¬ ((A.length : Int) < 0) := by omega
  simp only [Index_byte p A C hA, hn, if_false, Int.toNat_ofNat, List.take_left',
    List.length_singleton]
  have hd : List.drop (A.length + 1) (A ++ p :: C) = C := by
    rw [List.drop_append]
    rfl
  rw [hd, genSplit_absent p _ C hC]

theorem MarshalText_no_space (a : Int) : 32 ∉ Amount.MarshalText a := by
  have hs : 32 ∉ minusSign a := by
    unfold minusSign
    split <;> simp
  have hf : 32 ∉ FormatUint (a.natAbs / 100) := by
    intro h
    have := FormatUint_digits _ 32 h
    omega
  rw [MarshalText_eq]
  split
  · intro h
    rcases List.mem_append.mp h with h | h
    · exact hs h
    · exact hf h
  · intro h
    rcases List.mem_append.mp h with h | h
    · rcases List.mem_append.mp h with h | h
      · exact hs h
      · exact hf h
    · simp only [List.mem_cons, List.mem_singleton, List.not_mem_nil, or_false] at h
      omega

theorem Funds_round_trip (currency : Bytes) (a : Int) (ha : minInt64 ≤ a ∧ a ≤ maxInt64)
    (hc : 32 ∉ currency) :
    Funds.UnmarshalText (Funds.MarshalText ⟨currency, a⟩) = .ok ⟨currency, a⟩ := by
  unfold Funds.UnmarshalText Funds.MarshalText Amount.String
  simp only [ascii_space, List.append_assoc, List.singleton_append,
    Split_two 32 _ _ (MarshalText_no_space a) hc, List.length_cons, List.length_nil,
    List.getD_cons_zero, List.getD_cons_succ, UnmarshalText_MarshalText a ha]
  simp

/-! ## Claim C23 -/

/-- C23: the text of funds parses back to the funds. For funds whose currency has
no space (the empty currency included) and whose amount is an int64, `MarshalText`
is the text of the amount, a space and the currency, and `UnmarshalText` of it
succeeds and gives the funds back; `UnmarshalText` returns an error for every
text that does not split on the space into exactly two parts. -/
theorem C23_funds_round_trip (f : Funds) (ha : minInt64 ≤ f.Amount ∧ f.Amount ≤ maxInt64)
    (hc : 32 ∉ f.Currency) :
    Funds.MarshalText f = Amount.String f.Amount ++ [32] ++ f.Currency ∧
    Funds.UnmarshalText (Funds.MarshalText f) = .ok f ∧
    ∀ text : Bytes, (strings.Split text (ascii " ")).length ≠ 2 →
      Funds.UnmarshalText text = .error .invalidText := by
  refine ⟨rfl, Funds_round_trip f.Currency f.Amount ha hc, ?_⟩
  intro text h
  simp only [Funds.UnmarshalText, h, ne_eq, not_false_eq_true, if_true]

/-- C23 at `-12.34 UAH` and at the text `12 US D` of three parts. -/
theorem C23_funds_round_trip_witness :
    Funds.UnmarshalText (Funds.MarshalText ⟨ascii "UAH", -1234⟩) = .ok ⟨ascii "UAH", -1234⟩ ∧
    Funds.UnmarshalText (ascii "12 US D") = .error .invalidText :=
  ⟨(C23_funds_round_trip ⟨ascii "UAH", -1234⟩ (by decide) (by decide)).2.1,
   (C23_funds_round_trip ⟨ascii "UAH", -1234⟩ (by decide) (by decide)).2.2 (ascii "12 US D")
     (by decide)⟩

/-! ## Lemmas: the workers -/

theorem findSome_first (completed : List (Statements × Option GoError)) (err : GoError)
    (h : completed.findSome? (fun r => r.2) = some err) :
    ∃ pre r post, completed = pre ++ r :: post ∧ (∀ x ∈ pre, x.2 = none) ∧ r.2 = some err := by
  induction completed with
  | nil => simp at h
  | cons c cs ih =>
    cases hc : c.2 with
    | some e =>
      simp only [List.findSome?_cons, hc, Option.some.injEq] at h
      subst h
      exact ⟨[], c, cs, rfl, by simp, hc⟩
    | none =>
      simp only [List.findSome?_cons, hc] at h
      obtain ⟨pre, r, post, e1, e2, e3⟩ := ih h
      refine ⟨c :: pre, r, post, by rw [e1]; rfl, ?_, e3⟩
      intro x hx
      rcases List.mem_cons.mp hx with e | hx
      · rw [e]
        exact hc
      · exact e2 x hx

theorem workers_fold_all_ok (completed : List (Statements × Option GoError)) (acc : Statements)
    (h : ∀ r ∈ completed, r.2 = none) :
    completed.foldl
        (fun res r =>
          match r.2 with
          | some _ => res
          | none => mergeStatements [res, r.1]) acc =
      (completed.map (·.1)).foldl (fun res statements => mergeStatements [res, statements])
        acc := by
  induction completed generalizing acc with
  | nil => rfl
  | cons c cs ih =>
    have hc : c.2 = none := h c (by simp)
    simp only [List.foldl_cons, List.map_cons, hc]
    exact ih _ (fun r hr => h r (by simp [hr]))

/-! ## Claim C24 -/

/-- C24: statement retrieval is all or nothing. When the call of at least one
worker returned an error, `getStatementsWithProgressBar` returns the zero
`Statements` and the error of the first worker, in the order of finishing, that
returned one; it returns a merged result, the merge of all the workers' results,
only when every call succeeded. -/
theorem C24_all_or_nothing (completed : List (Statements × Option GoError)) :
    ((∃ r ∈ completed, r.2 ≠ none) →
      ∃ err, getStatementsWithProgressBar completed = (zeroStatements, some err) ∧
        ∃ pre r post, completed = pre ++ r :: post ∧ (∀ x ∈ pre, x.2 = none) ∧
          r.2 = some err) ∧
    (∀ res, getStatementsWithProgressBar completed = (res, none) →
      (∀ r ∈ completed, r.2 = none) ∧ res = mergeCompleted (completed.map (·.1))) := by
  constructor
  · intro ⟨r, hr, hne⟩
    cases hf : completed.findSome? (fun r => r.2) with
    | none =>
      rw [List.findSome?_eq_none_iff] at hf
      exact absurd (hf r hr) hne
    | some err =>
      refine ⟨err, ?_, findSome_first completed err hf⟩
      simp only [getStatementsWithProgressBar, hf]
  · intro res h
    cases hf : completed.findSome? (fun r => r.2) with
    | some err =>
      simp only [getStatementsWithProgressBar, hf, Prod.mk.injEq, reduceCtorEq, and_false] at h
    | none =>
      have hall : ∀ r ∈ completed, r.2 = none := by
        rw [List.findSome?_eq_none_iff] at hf
        exact hf
      simp only [getStatementsWithProgressBar, hf, Prod.mk.injEq, and_true] at h
      refine ⟨hall, ?_⟩
      rw [← h, workers_fold_all_ok completed zeroStatements hall]
      rfl

/-- C24 at two workers of which the second to finish fails: the result of the
first is dropped and the error is returned. -/
theorem C24_all_or_nothing_witness :
    ∃ err, getStatementsWithProgressBar
        [(demoResultA, none), (zeroStatements, some (.plain "context canceled"))] =
      (zeroStatements, some err) ∧
      ∃ pre r post,
        [(demoResultA, none), (zeroStatements, some (GoError.plain "context canceled"))] =
          pre ++ r :: post ∧ (∀ x ∈ pre, x.2 = none) ∧ r.2 = some err :=
  (C24_all_or_nothing
    [(demoResultA, none), (zeroStatements, some (.plain "context canceled"))]).1
    ⟨(zeroStatements, some (.plain "context canceled")), by simp, by simp⟩

/-! ## Lemmas: the format parser -/

theorem ascii_bar : ascii "|" = [124] := rfl

theorem genSplit_joinBar (F : Bytes) (Fs : List Bytes) (fuel : Nat) (hf : Fs.length ≤ fuel)
    (h : ∀ G ∈ F :: Fs, 124 ∉ G) :
    genSplit [124] fuel (joinBar (F :: Fs)) = F :: Fs := by
  induction Fs generalizing F fuel with
  | nil => exact genSplit_absent 124 fuel F (h F (by simp))
  | cons G Gs ih =>
    cases fuel with
    | zero => simp at hf
    | succ k =>
      have hF : 124 ∉ F := h F (by simp)
      have hn : ¬ ((F.length : Int) < 0) := by omega
      have hd : List.drop (F.length + 1) (F ++ 124 :: joinBar (G :: Gs)) = joinBar (G :: Gs) := by
        rw [List.drop_append]
        rfl
      rw [joinBar, genSplit]
      simp only [Index_byte 124 F _ hF, hn, if_false, Int.toNat_ofNat, List.take_left',
        List.length_singleton, hd]
      rw [ih G k (by simp only [List.length_cons] at hf; omega)
        (fun X hX => h X (by simp only [List.mem_cons] at hX ⊢; exact Or.inr hX))]

theorem joinBar_length (F : Bytes) (Fs : List Bytes) : Fs.length ≤ (joinBar (F :: Fs)).length := by
  induction Fs generalizing F with
  | nil => simp
  | cons G Gs ih =>
    have := ih G
    simp only [joinBar, List.length_append, List.length_cons]
    omega

theorem Split_joinBar (Fs : List Bytes) (hne : Fs ≠ []) (h : ∀ G ∈ Fs, 124 ∉ G) :
    strings.Split (joinBar Fs) (ascii "|") = Fs := by
  cases Fs with
  | nil => exact absurd rfl hne
  | cons F Fs =>
    rw [ascii_bar]
    exact genSplit_joinBar F Fs _ (joinBar_length F Fs) h

theorem joinBar_snoc (Fs : List Bytes) (hne : Fs ≠ []) (D : Bytes) :
    joinBar (Fs ++ [D]) = joinBar Fs ++ 124 :: D := by
  induction Fs with
  | nil => exact absurd rfl hne
  | cons F Fs ih =>
    cases Fs with
    | nil => rfl
    | cons G Gs =>
      have := ih (by simp)
      simp only [List.cons_append] at this ⊢
      rw [joinBar, this, joinBar]
      simp

theorem nonWordRegexp_ascii (d : Nat) (h1 : d < 128) (h2 : isWord d = false) :
    nonWordRegexp [d] = true := by
  simp [nonWordRegexp, runeWidth, h1, h2]

theorem formatLoop_fields (fbn : Bytes → Option StructField) (Fs acc : List Bytes) (delim : Nat)
    (hf : ∀ F ∈ Fs, ∃ sf, fbn F = some sf ∧ sf.Anonymous = false)
    (hl : ∀ F, Fs.getLast? = some F → nonWordRegexp F = false) :
    formatLoop fbn Fs acc delim = .ok (acc ++ Fs, delim) := by
  induction Fs generalizing acc with
  | nil => simp [formatLoop]
  | cons F rest ih =>
    obtain ⟨sf, h1, h2⟩ := hf F (by simp)
    have hc : ¬ (rest = [] ∧ nonWordRegexp F = true) := by
      intro ⟨e, hw⟩
      subst e
      have := hl F rfl
      rw [this] at hw
      exact Bool.false_ne_true hw
    rw [formatLoop]
    simp only [hc, if_false, h1, h2, Bool.false_eq_true]
    rw [ih (acc ++ [F]) (fun G hG => hf G (by simp [hG]))]
    · simp
    · intro G hG
      apply hl G
      cases rest with
      | nil => simp at hG
      | cons R Rs => rw [List.getLast?_cons_cons]; exact hG

theorem formatLoop_delim (fbn : Bytes → Option StructField) (Fs acc : List Bytes)
    (delim d : Nat) (hf : ∀ F ∈ Fs, ∃ sf, fbn F = some sf ∧ sf.Anonymous = false)
    (hd : nonWordRegexp [d] = true) :
    formatLoop fbn (Fs ++ [[d]]) acc delim = .ok (acc ++ Fs, d) := by
  induction Fs generalizing acc with
  | nil => simp [formatLoop, hd]
  | cons F rest ih =>
    obtain ⟨sf, h1, h2⟩ := hf F (by simp)
    have hc : ¬ (rest ++ [[d]] = [] ∧ nonWordRegexp F = true) := by simp
    rw [List.cons_append, formatLoop]
    simp only [hc, if_false, h1, h2, Bool.false_eq_true]
    rw [ih (acc ++ [F]) (fun G hG => hf G (by simp [hG]))]
    simp

theorem formatLoop_invalid (fbn : Bytes → Option StructField) (pre post acc : List Bytes)
    (F : Bytes) (delim : Nat)
    (hbad : fbn F = none ∨ ∃ sf, fbn F = some sf ∧ sf.Anonymous = true)
    (hw : nonWordRegexp F = false) :
    ∃ e, formatLoop fbn (pre ++ F :: post) acc delim = .error e := by
  induction pre generalizing acc with
  | nil =>
    rw [List.nil_append, formatLoop]
    simp only [hw, Bool.false_eq_true, and_false, if_false]
    rcases hbad with h | ⟨sf, h1, h2⟩
    · rw [h]
      exact ⟨_, rfl⟩
    · rw [h1]
      simp only [h2, if_true]
      exact ⟨_, rfl⟩
  | cons P pre ih =>
    have hc : ¬ (pre ++ F :: post = [] ∧ nonWordRegexp P = true) := by simp
    rw [List.cons_append, formatLoop]
    simp only [hc, if_false]
    cases hP : fbn P with
    | none => exact ⟨_, rfl⟩
    | some sf =>
      simp only
      split
      · exact ⟨_, rfl⟩
      · exact ih _

theorem valuesLoop_ok {V : Type} (fbn : Bytes → Option (V × Bool)) (names : List Bytes)
    (h : ∀ name ∈ names, ∃ v, fbn name = some (v, true)) :
    ∃ vs, valuesLoop fbn names = .ok vs ∧
      List.Forall₂ (fun name v => fbn name = some (v, true)) names vs := by
  induction names with
  | nil => exact ⟨[], rfl, List.Forall₂.nil⟩
  | cons n rest ih =>
    obtain ⟨v, hv⟩ := h n (by simp)
    obtain ⟨vs, h1, h2⟩ := ih (fun m hm => h m (by simp [hm]))
    refine ⟨v :: vs, ?_, List.Forall₂.cons hv h2⟩
    simp only [valuesLoop, hv, h1, Bool.true_eq_false, if_false]

theorem valuesLoop_missing {V : Type} (fbn : Bytes → Option (V × Bool)) (names : List Bytes)
    (h : ∃ name ∈ names, fbn name = none) : ∃ e, valuesLoop fbn names = .error e := by
  induction names with
  | nil => simp at h
  | cons n rest ih =>
    rw [valuesLoop]
    cases hn : fbn n with
    | none => exact ⟨_, rfl⟩
    | some p =>
      obtain ⟨v, can⟩ := p
      simp only
      split
      · exact ⟨_, rfl⟩
      · obtain ⟨m, hm, hnone⟩ := h
        have hrest : ∃ name ∈ rest, fbn name = none := by
          rcases List.mem_cons.mp hm with e | hm
          · rw [e, hn] at hnone
            exact absurd hnone (by simp)
          · exact ⟨m, hm, hnone⟩
        obtain ⟨e, he⟩ := ih hrest
        rw [he]
        exact ⟨_, rfl⟩

/-! ## Claims C25 to C27 -/

/-- C25 fails as stated: `|` is a single ASCII non-word character, and for the
input `A|B|C||`, which ends with `|` and that character, the parser returns an
error, the text being split at every `|`. -/
theorem C25_counterexample :
    isWord 124 = false ∧
    MakeFormat (ascii "A|B|C" ++ [124, 124]) (DefaultFormatParser testStruct) =
      (zeroFormat, some "invalid field") := by
  decide

/-- C25, as the code has it, for a struct type and segments `F1`, ..., `Fn`
(`n ≥ 1`, none with a `|`). When every `Fi` names a field that is not embedded and
`Fn` is not a single non-word character, `F1|...|Fn` gives the format with the
input as `Str`, the fields `F1`, ..., `Fn` in order and the delimiter `,`; with
`|d` appended, `d` a single ASCII non-word character other than `|`, the fields are
the same and the delimiter is `d`; when some `Fi` that is not a single non-word
character names no field or an embedded one, the result is an error and the zero
`Format`. -/
theorem C25_parse_format (fbn : Bytes → Option StructField) (Fs : List Bytes) (hne : Fs ≠ [])
    (hbar : ∀ F ∈ Fs, 124 ∉ F) :
    ((∀ F ∈ Fs, ∃ sf, fbn F = some sf ∧ sf.Anonymous = false) →
      (∀ F, Fs.getLast? = some F → nonWordRegexp F = false) →
      MakeFormat (joinBar Fs) (DefaultFormatParser (.struct fbn)) =
        ({ Str := joinBar Fs, Fields := Fs, Delim := 44 }, none)) ∧
    ((∀ F ∈ Fs, ∃ sf, fbn F = some sf ∧ sf.Anonymous = false) →
      ∀ d : Nat, d < 128 → isWord d = false → d ≠ 124 →
      MakeFormat (joinBar Fs ++ [124, d]) (DefaultFormatParser (.struct fbn)) =
        ({ Str := joinBar Fs ++ [124, d], Fields := Fs, Delim := d }, none)) ∧
    ((∃ F ∈ Fs, nonWordRegexp F = false ∧
        (fbn F = none ∨ ∃ sf, fbn F = some sf ∧ sf.Anonymous = true)) →
      ∃ e, MakeFormat (joinBar Fs) (DefaultFormatParser (.struct fbn)) =
        (zeroFormat, some e)) := by
  have hlen : ¬ Fs.length = 0 := fun e => hne (List.length_eq_zero.mp e)
  refine ⟨?_, ?_, ?_⟩
  · intro hf hl
    simp only [MakeFormat, DefaultFormatParser, Split_joinBar Fs hne hbar, hlen, if_false,
      formatLoop_fields fbn Fs [] 44 hf hl, List.nil_append]
  · intro hf d h1 h2 h3
    have hsplit : strings.Split (joinBar Fs ++ [124, d]) (ascii "|") = Fs ++ [[d]] := by
      rw [← joinBar_snoc Fs hne [d]]
      apply Split_joinBar
      · simp
      · intro G hG
        rcases List.mem_append.mp hG with hG | hG
        · exact hbar G hG
        · simp only [List.mem_singleton] at hG
          subst hG
          simpa using h3.symm
    have hl2 : ¬ (Fs ++ [[d]]).length = 0 := by simp
    simp only [MakeFormat, DefaultFormatParser, hsplit, hl2, if_false,
      formatLoop_delim fbn Fs [] 44 d hf (nonWordRegexp_ascii d h1 h2), List.nil_append, hlen]
  · intro ⟨F, hF, hw, hbad⟩
    obtain ⟨pre, post, hsplit⟩ := List.append_of_mem hF
    obtain ⟨e, he⟩ := formatLoop_invalid fbn pre post [] F 44 hbad hw
    refine ⟨e, ?_⟩
    simp only [MakeFormat, DefaultFormatParser, Split_joinBar Fs hne hbar, hlen, if_false]
    rw [← hsplit] at he
    simp only [he]

/-- C25 at the three inputs of the repository's test: `A|B|C` and `A|B|C|;` on the
struct with the fields `A`, `B`, `C`, and `A|B|D` with no field `D`. -/
theorem C25_parse_format_witness :
    MakeFormat (joinBar [ascii "A", ascii "B", ascii "C"]) (DefaultFormatParser testStruct) =
      ({ Str := joinBar [ascii "A", ascii "B", ascii "C"],
         Fields := [ascii "A", ascii "B", ascii "C"], Delim := 44 }, none) ∧
    MakeFormat (joinBar [ascii "A", ascii "B", ascii "C"] ++ [124, 59])
        (DefaultFormatParser testStruct) =
      ({ Str := joinBar [ascii "A", ascii "B", ascii "C"] ++ [124, 59],
         Fields := [ascii "A", ascii "B", ascii "C"], Delim := 59 }, none) ∧
    (∃ e, MakeFormat (joinBar [ascii "A", ascii "B", ascii "D"])
        (DefaultFormatParser testStruct) = (zeroFormat, some e)) :=
  ⟨(C25_parse_format _ [ascii "A", ascii "B", ascii "C"] (by decide) (by decide)).1
      (by decide) (by decide),
   (C25_parse_format _ [ascii "A", ascii "B", ascii "C"] (by decide) (by decide)).2.1
      (by decide) 59 (by decide) (by decide) (by decide),
   (C25_parse_format _ [ascii "A", ascii "B", ascii "D"] (by decide) (by decide)).2.2
      ⟨ascii "D", by decide, by decide, Or.inl (by decide)⟩⟩

/-- C26 on the code: on the struct of the repository's test, whose field `a` is
unexported, the format `A|a` is accepted with the fields `A` and `a`: the parser
asks `FieldByName`, which finds unexported fields too, and looks at `Anonymous`
only. -/
theorem C26_parser_accepts_unexported_field :
    (∃ sf, (match testStruct with
            | .struct fbn => fbn (ascii "a")
            | .other _ => none) = some sf ∧ sf.PkgPath ≠ []) ∧
    MakeFormat (ascii "A|a") (DefaultFormatParser testStruct) =
      ({ Str := ascii "A|a", Fields := [ascii "A", ascii "a"], Delim := 44 }, none) := by
  constructor
  · exact ⟨⟨ascii "a", ascii "export", false⟩, by decide, by decide⟩
  · decide

/-- C27: `ValuesOf` returns the field values in the order of `f.Fields`. For a
struct, or a pointer to one, with an exported field for each name in `f.Fields`,
the result has one value for each name, the value of the field of that name, in
order; when some name is no field of the struct, and when the value is neither a
struct nor a pointer to one, the result is an error. -/
theorem C27_values_in_field_order {V : Type} (f : Format) (fbn : Bytes → Option (V × Bool)) :
    ((∀ name ∈ f.Fields, ∃ v, fbn name = some (v, true)) →
      ∃ vs, f.ValuesOf (.struct fbn) = .ret (.ok vs) ∧
        f.ValuesOf (.ptr (.struct fbn)) = .ret (.ok vs) ∧
        vs.length = f.Fields.length ∧
        List.Forall₂ (fun name v => fbn name = some (v, true)) f.Fields vs) ∧
    ((∃ name ∈ f.Fields, fbn name = none) →
      ∃ e, f.ValuesOf (.struct fbn) = .ret (.error e) ∧
        f.ValuesOf (.ptr (.struct fbn)) = .ret (.error e)) ∧
    (∀ kind : String, ∃ e, f.ValuesOf (Obj.other kind : Obj V) = .ret (.error e) ∧
      f.ValuesOf (.ptr (Obj.other kind : Obj V)) = .ret (.error e)) := by
  refine ⟨?_, ?_, ?_⟩
  · intro h
    obtain ⟨vs, h1, h2⟩ := valuesLoop_ok fbn f.Fields h
    refine ⟨vs, ?_, ?_, h2.length_eq.symm, h2⟩
    · simp only [Format.ValuesOf, h1]
    · simp only [Format.ValuesOf, h1]
  · intro h
    obtain ⟨e, he⟩ := valuesLoop_missing fbn f.Fields h
    refine ⟨e, ?_, ?_⟩
    · simp only [Format.ValuesOf, he]
    · simp only [Format.ValuesOf, he]
  · intro kind
    exact ⟨_, rfl, rfl⟩

/-- C27 at the object `{A: 1, B: 2, C: 3}` of a struct with these three fields and
the format `A|B|C`, and at the format `A|BB|C`, which names no field. -/
theorem C27_values_in_field_order_witness :
    (∃ vs : List Nat,
      Format.ValuesOf ⟨ascii "A|B|C", [ascii "A", ascii "B", ascii "C"], 44⟩
        (.struct demoObj) = .ret (.ok vs) ∧
      Format.ValuesOf ⟨ascii "A|B|C", [ascii "A", ascii "B", ascii "C"], 44⟩
        (.ptr (.struct demoObj)) = .ret (.ok vs) ∧
      vs.length = 3 ∧
      List.Forall₂ (fun name v => demoObj name = some (v, true))
        [ascii "A", ascii "B", ascii "C"] vs) ∧
    (∃ e,
      Format.ValuesOf ⟨ascii "A|BB|C", [ascii "A", ascii "BB", ascii "C"], 44⟩
        (.struct demoObj) = .ret (.error e) ∧
      Format.ValuesOf ⟨ascii "A|BB|C", [ascii "A", ascii "BB", ascii "C"], 44⟩
        (.ptr (.struct demoObj)) = .ret (.error e)) :=
  ⟨(C27_values_in_field_order
      ⟨ascii "A|B|C", [ascii "A", ascii "B", ascii "C"], 44⟩ demoObj).1
      (by
        intro name hn
        simp only [List.mem_cons, List.mem_singleton, List.not_mem_nil, or_false] at hn
        rcases hn with h | h | h
        · exact ⟨1, by subst h; decide⟩
        · exact ⟨2, by subst h; decide⟩
        · exact ⟨3, by subst h; decide⟩),
   (C27_values_in_field_order
      ⟨ascii "A|BB|C", [ascii "A", ascii "BB", ascii "C"], 44⟩ demoObj).2.1
      ⟨ascii "BB", by decide, by decide⟩⟩

/-! ## Lemmas: the days of a date range and its windows -/

theorem Split_getElem (startDate endDate : Time) (card : Bytes) (i : Nat) (w : StatementsOpts) :
    (SplitStatementsDateRange startDate endDate card)[i]? = some w ↔
      i < splitCount startDate endDate ∧
        w = windowAt endDate card startDate (startDate.Add (90 * 24 * Hour)) i := by
  rw [Split_eq, List.getElem?_map]
  by_cases h : i < splitCount startDate endDate
  · rw [List.getElem?_range h]
    simp only [Option.map_some', Option.some.injEq, h, true_and]
    exact eq_comm
  · rw [List.getElem?_eq_none (by simpa using h)]
    simp [h]

theorem windowAt_day_iff (endDate : Time) (card : Bytes) (startDate : Time) (i k : Nat)
    (hk : startDate.unixNano + k * (24 * Hour) ≤ endDate.unixNano) :
    ((windowAt endDate card startDate (startDate.Add (90 * 24 * Hour)) i).StartDate.unixNano ≤
        startDate.unixNano + k * (24 * Hour) ∧
      startDate.unixNano + k * (24 * Hour) ≤
        (windowAt endDate card startDate (startDate.Add (90 * 24 * Hour)) i).EndDate.unixNano) ↔
      i = k / 91 := by
  simp only [windowAt, Time.Add, Hour, Second] at hk ⊢
  rw [le_min_iff]
  constructor
  · rintro ⟨h1, h2, -⟩
    have a : 91 * (i : Int) ≤ k := by omega
    have b : (k : Int) ≤ 90 + 91 * i := by omega
    omega
  · intro h
    have a : 91 * (i : Int) ≤ k := by omega
    have b : (k : Int) ≤ 90 + 91 * i := by omega
    refine ⟨by omega, by omega, hk⟩

theorem splitCount_covers (startDate endDate : Time) (k : Nat)
    (hfit : endDate.unixNano - startDate.unixNano ≤ maxDuration)
    (hk : startDate.unixNano + k * (24 * Hour) ≤ endDate.unixNano) :
    k / 91 < splitCount startDate endDate := by
  by_cases hs : endDate.unixNano - startDate.unixNano ≤ 90 * 24 * Hour
  · rw [splitCount_short _ _ hs]
    simp only [Hour, Second] at hs hk
    have : (k : Int) ≤ 90 := by omega
    omega
  · have hl : 90 * 24 * Hour < endDate.unixNano - startDate.unixNano := by omega
    rw [splitCount_long _ _ hl hfit]
    have hd : 7776000000000000 < (endDate.unixNano - startDate.unixNano).toNat ∧
        (endDate.unixNano - startDate.unixNano).toNat < 9223372036854775808 := by
      simp only [Hour, Second, maxDuration] at hl hfit
      omega
    have hc := ceilFloatQuot_cover _ hd.1 hd.2
    generalize ceilFloatQuot (endDate.unixNano - startDate.unixNano).toNat 7776000000000000 = n
      at hc
    simp only [Hour, Second, maxDuration] at hl hfit hk
    have hkd : k * 86400000000000 ≤ (endDate.unixNano - startDate.unixNano).toNat := by omega
    have : k + 1 ≤ 91 * n := by omega
    omega

/-! ## Claim C30 -/

/-- C30 fails as stated: from 1700-01-01 to 2000-01-01 (109572 days) the span does
not fit a `time.Duration`, the code makes 1187 options, and the day of the end
date, 109572 days after the start, lies in none of them. -/
theorem C30_counterexample :
    (⟨-8520336000000000000⟩ : Time).unixNano < (⟨946684800000000000⟩ : Time).unixNano ∧
    (-8520336000000000000 : Int) + 109572 * (24 * Hour) ≤ 946684800000000000 ∧
    ∀ w ∈ SplitStatementsDateRange ⟨-8520336000000000000⟩ ⟨946684800000000000⟩
        (ascii "1111111111111112"),
      ¬ (w.StartDate.unixNano ≤ -8520336000000000000 + 109572 * (24 * Hour) ∧
        -8520336000000000000 + 109572 * (24 * Hour) ≤ w.EndDate.unixNano) := by
  refine ⟨by decide, by decide, ?_⟩
  intro w hw
  rw [Split_eq] at hw
  have hn : splitCount ⟨-8520336000000000000⟩ ⟨946684800000000000⟩ = 1187 := by decide
  rw [hn] at hw
  obtain ⟨i, hi, rfl⟩ := List.mem_map.mp hw
  have hi2 : i < 1187 := List.mem_range.mp hi
  simp only [windowAt, Time.Add, Hour, Second]
  rw [le_min_iff]
  rintro ⟨-, h, -⟩
  omega

/-- C30, as the code has it, for a start and an end date whose span is at most the
largest `time.Duration` (so for every start date before an end date up to about 292
years later): each option starts later than the one before it ends, and every
instant a whole number `k` of days after the start date and not after the end date
lies between `StartDate` and `EndDate` of exactly one option, the one of index
`k / 91`. -/
theorem C30_no_day_lost_or_duplicated (startDate endDate : Time) (card : Bytes)
    (hfit : endDate.unixNano - startDate.unixNano ≤ maxDuration) :
    (∀ (i : Nat) (w v : StatementsOpts),
      (SplitStatementsDateRange startDate endDate card)[i]? = some w →
      (SplitStatementsDateRange startDate endDate card)[i + 1]? = some v →
      v.StartDate.After w.EndDate = true) ∧
    (∀ k : Nat, startDate.unixNano + k * (24 * Hour) ≤ endDate.unixNano →
      (∃! i : Nat, ∃ w, (SplitStatementsDateRange startDate endDate card)[i]? = some w ∧
        w.StartDate.unixNano ≤ startDate.unixNano + k * (24 * Hour) ∧
        startDate.unixNano + k * (24 * Hour) ≤ w.EndDate.unixNano) ∧
      ∃ w, (SplitStatementsDateRange startDate endDate card)[k / 91]? = some w ∧
        w.StartDate.unixNano ≤ startDate.unixNano + k * (24 * Hour) ∧
        startDate.unixNano + k * (24 * Hour) ≤ w.EndDate.unixNano) := by
  constructor
  · intro i w v hw hv
    obtain ⟨-, rfl⟩ := (Split_getElem _ _ _ _ _).mp hw
    obtain ⟨-, rfl⟩ := (Split_getElem _ _ _ _ _).mp hv
    simp only [windowAt, Time.After, Time.Add, Hour, Second, decide_eq_true_eq, gt_iff_lt]
    rw [min_lt_iff]
    left
    push_cast
    omega
  · intro k hk
    have hex : ∃ w, (SplitStatementsDateRange startDate endDate card)[k / 91]? = some w ∧
        w.StartDate.unixNano ≤ startDate.unixNano + k * (24 * Hour) ∧
        startDate.unixNano + k * (24 * Hour) ≤ w.EndDate.unixNano :=
      ⟨_, (Split_getElem _ _ _ _ _).mpr ⟨splitCount_covers _ _ k hfit hk, rfl⟩,
        (windowAt_day_iff endDate card startDate (k / 91) k hk).mpr rfl⟩
    refine ⟨⟨k / 91, hex, ?_⟩, hex⟩
    rintro j ⟨w, hw, h1, h2⟩
    obtain ⟨-, rfl⟩ := (Split_getElem _ _ _ _ _).mp hw
    exact (windowAt_day_iff endDate card startDate j k hk).mp ⟨h1, h2⟩

/-- C30 at the 244 days of the repository's test (2000-01-01 to 2000-09-01): the
day 100 days after the start lies in exactly one option, the second. -/
theorem C30_no_day_lost_or_duplicated_witness :
    (⟨946684800000000000⟩ : Time).unixNano < (⟨967766400000000000⟩ : Time).unixNano ∧
    (∃! i : Nat, ∃ w, (SplitStatementsDateRange ⟨946684800000000000⟩ ⟨967766400000000000⟩
        (ascii "1111111111111113"))[i]? = some w ∧
      w.StartDate.unixNano ≤ (⟨946684800000000000⟩ : Time).unixNano + (100 : Nat) * (24 * Hour) ∧
      (⟨946684800000000000⟩ : Time).unixNano + (100 : Nat) * (24 * Hour) ≤ w.EndDate.unixNano) :=
  ⟨by decide,
   ((C30_no_day_lost_or_duplicated ⟨946684800000000000⟩ ⟨967766400000000000⟩
      (ascii "1111111111111113") (by decide)).2 100 (by decide)).1⟩

end P24
